import Mathlib

set_option linter.unusedVariables false

namespace GitStack

/-- Commit ids (git object ids), abstracted as naturals with their total order;
the code only ever compares them for equality and stores them as ordered map
keys. -/
abbrev Oid := Nat

/-- Modelled from the spec: the Commit record of section 3 (the concrete type
lives in the git module, outside src/); only the fields the verified claims
inspect are kept (id, tree id, summary). -/
structure Commit where
  id : Oid
  tree_id : Oid
  summary : String
deriving DecidableEq

/-- Modelled from the spec: the Branch record of section 3 (the concrete type
lives in the git module, outside src/): a named ref snapshot with its commit id
and optional push/pull upstream ids. -/
structure Branch where
  name : String
  id : Oid
  push_id : Option Oid
  pull_id : Option Oid
deriving DecidableEq

/-- Modelled from the spec: the BranchIndex of section 3 (git::Branches, outside
src/): a mapping from commit id to the non-empty ordered sequence of branches at
that commit, embedded as an association list in the order the underlying
ordered map iterates. -/
structure Branches where
  buckets : List (Oid × List Branch)
deriving DecidableEq

def Branches.empty : Branches := ⟨[]⟩

def Branches.get (bs : Branches) (id : Oid) : Option (List Branch) :=
  (bs.buckets.find? (fun p => p.1 == id)).map (·.2)

def Branches.remove (bs : Branches) (id : Oid) : Option (List Branch) × Branches :=
  (bs.get id, ⟨bs.buckets.filter (fun p => p.1 != id)⟩)

def Branches.oids (bs : Branches) : List Oid := bs.buckets.map (·.1)

def Branches.is_empty (bs : Branches) : Bool := bs.buckets.isEmpty

def Branches.contains_oid (bs : Branches) (id : Oid) : Bool :=
  bs.buckets.any (fun p => p.1 == id)

def Branches.first_name (bs : Branches) (id : Oid) : String :=
  (((bs.get id).getD []).head?.map Branch.name).getD ""

/-- Modelled from the spec: the protected filter of section 4.2 (outside src/):
keep only the branches whose name matches the compiled protected pattern set,
here abstracted as a predicate on names. -/
def Branches.protectedBy (bs : Branches) (m : String → Bool) : Branches :=
  ⟨bs.buckets.filterMap (fun p =>
    let l := p.2.filter (fun b => m b.name)
    if l.isEmpty then none else some (p.1, l))⟩

/-- Modelled from the spec: the Repo capability surface of section 4.1 that
src/graph/node.rs consumes (merge-base query, commit lookup, first-parent
ancestry walk). -/
structure Repo where
  merge_base : Oid → Oid → Option Oid
  find_commit : Oid → Option Commit
  commits_from : Oid → List Commit

/-- Modelled from the spec: the Action tag of section 3 (crate graph module,
outside src/); src/graph/node.rs only ever constructs Pick. -/
inductive Action where
  | Pick
  | Protected
  | Delete
  | Fixup
deriving DecidableEq

def Action.is_protected : Action → Bool
  | .Protected => true
  | _ => false

def Action.is_rebase : Action → Bool
  | .Pick => true
  | .Fixup => true
  | _ => false

def Action.is_delete : Action → Bool
  | .Delete => true
  | _ => false

/-- The graph node of src/graph/node.rs (lines 3-10): one node per commit,
children keyed by commit id in an ordered map, embedded as an ordered
association list. -/
inductive Node where
  | mk (local_commit : Commit) (branches : List Branch) (action : Action)
      (pushable : Bool) (children : List (Oid × Node))

def Node.local_commit : Node → Commit
  | .mk c _ _ _ _ => c

def Node.branches : Node → List Branch
  | .mk _ b _ _ _ => b

def Node.action : Node → Action
  | .mk _ _ a _ _ => a

def Node.pushable : Node → Bool
  | .mk _ _ _ p _ => p

def Node.children : Node → List (Oid × Node)
  | .mk _ _ _ _ cs => cs

def Node.cid (n : Node) : Oid := n.local_commit.id

/-- Lookup in the ordered children map (BTreeMap::get_mut in merge, line 209). -/
def btLookup : List (Oid × Node) → Oid → Option Node
  | [], _ => none
  | (k0, v0) :: rest, k => if k0 = k then some v0 else btLookup rest k

/-- Ordered-map insertion (BTreeMap::insert): places the key in sorted
position, replacing an existing entry with the same key. -/
def btInsert : List (Oid × Node) → Oid → Node → List (Oid × Node)
  | [], k, v => [(k, v)]
  | (k0, v0) :: rest, k, v =>
    if k < k0 then (k, v) :: (k0, v0) :: rest
    else if k = k0 then (k, v) :: rest
    else (k0, v0) :: btInsert rest k v

/-- In-place update of the value at an existing key (the get_mut-and-mutate
step of Node::merge, lines 209-210); keys are unchanged. -/
def btReplace : List (Oid × Node) → Oid → Node → List (Oid × Node)
  | [], _, _ => []
  | (k0, v0) :: rest, k, v =>
    if k0 = k then (k0, v) :: rest else (k0, v0) :: btReplace rest k v

/-- Node::new (src/graph/node.rs lines 13-28): take the branches at the commit
out of the index and seed a childless Pick node. -/
def Node.new (local_commit : Commit) (possible_branches : Branches) :
    Node × Branches :=
  let r := possible_branches.remove local_commit.id
  (Node.mk local_commit (r.1.getD []) Action.Pick false [], r.2)

mutual

/-- Node::merge (src/graph/node.rs lines 201-216): union the branch lists and
recursively merge children keyed by commit id, keeping the existing child node
when both sides have one and inserting the other side's child otherwise. -/
def Node.merge (a b : Node) : Node :=
  match a, b with
  | .mk c br ac pu cs, .mk _ obr _ _ ocs =>
    Node.mk c (br ++ obr) ac pu (mergeChildren cs ocs)
termination_by sizeOf b

/-- The children loop of Node::merge (lines 208-214), iterating the other
node's children in key order. -/
def mergeChildren (cs ocs : List (Oid × Node)) : List (Oid × Node) :=
  match ocs with
  | [] => cs
  | (k, oc) :: rest =>
    match btLookup cs k with
    | some n => mergeChildren (btReplace cs k (Node.merge n oc)) rest
    | none => mergeChildren (btInsert cs k oc) rest
termination_by sizeOf ocs

end

mutual

/-- Node::find_commit_mut (lines 187-199) composed with the in-place merge that
Node::extend performs at the found node (line 103): depth-first search for the
node with the given commit id, merging the other tree there; none when the id
is absent. -/
def Node.mergeAt (self : Node) (id : Oid) (other : Node) : Option Node :=
  match self with
  | .mk c br ac pu cs =>
    if c.id = id then some (Node.merge (Node.mk c br ac pu cs) other)
    else
      match mergeAtChildren cs id other with
      | some cs2 => some (Node.mk c br ac pu cs2)
      | none => none
termination_by sizeOf self

/-- The children loop of find_commit_mut (lines 192-197): try children in key
order, rebuilding the map around the first subtree that contains the id. -/
def mergeAtChildren (cs : List (Oid × Node)) (id : Oid) (other : Node) :
    Option (List (Oid × Node)) :=
  match cs with
  | [] => none
  | (k, n) :: rest =>
    match Node.mergeAt n id other with
    | some n2 => some ((k, n2) :: rest)
    | none =>
      match mergeAtChildren rest id other with
      | some rest2 => some ((k, n) :: rest2)
      | none => none
termination_by sizeOf cs

end

def Node.with_action (n : Node) (a : Action) : Node :=
  match n with
  | .mk c br _ pu cs => Node.mk c br a pu cs

/-- The chain-building loop of Node::populate (lines 172-182): walk the
remaining first-parent ancestry, making each older commit the new root with the
previous root as its single child, stopping at the base commit (or when the
walk is exhausted, as in the source). -/
def populateGo (base_oid : Oid) (default_action : Action) :
    List Commit → Node → Branches → Node × Branches
  | [], root, bs => (root, bs)
  | c :: rest, child, bs =>
    let r := Node.new c bs
    let root := Node.mk c (r.1.branches) default_action false
      (btInsert [] child.cid child)
    if root.cid = base_oid then (root, r.2) else populateGo base_oid default_action rest root r.2

/-- Node::populate (src/graph/node.rs lines 135-185): build the linear chain
from head down to base along first-parent ancestry; fails when
merge_base(base, head) is missing or differs from base. The unwrap/expect
panics of the source (missing head commit, empty or misaligned ancestry walk)
are embedded as errors. -/
def Node.populate (repo : Repo) (base_oid head_oid : Oid) (branches : Branches)
    (default_action : Action) : Except String (Node × Branches) :=
  match repo.merge_base base_oid head_oid with
  | none => .error "Could not find merge base"
  | some m =>
    if m ≠ base_oid then .error "HEAD must be a descendant of base"
    else
      match repo.find_commit head_oid with
      | none => .error "panic: head commit not found"
      | some hc =>
        let r := Node.new hc branches
        let root := r.1.with_action default_action
        match repo.commits_from head_oid with
        | [] => .error "panic: commits_from always yields HEAD first"
        | first :: rest =>
          if first.id ≠ head_oid then .error "panic: first walked commit is HEAD"
          else if head_oid = base_oid then .ok (root, r.2)
          else .ok (populateGo base_oid default_action rest root r.2)

/-- One side of the splicing in Node::extend (lines 109-128): when the merge
base sits strictly below the node, populate the chain from the merge base up to
the node and splice the node beneath it. The source recursively extends the
populated chain with the node; that chain always contains the node's head
commit, so the recursive call reduces to mergeAt there (the impossible miss is
kept as an explicit error). An empty branch index is passed exactly as the
source does (line 108). -/
def extendSide (repo : Repo) (mb : Oid) (n : Node) : Except String Node :=
  if mb = n.cid then Except.ok n
  else
    match Node.populate repo mb n.cid Branches.empty n.action with
    | .error e => .error e
    | .ok pr =>
      match Node.mergeAt pr.1 n.cid n with
      | some s => .ok s
      | none => .error "unreachable: populated chain lacks its head"

/-- Node::extend (src/graph/node.rs lines 101-133): merge the other tree at the
shared commit when one exists, otherwise splice both trees above their merge
base and merge the results. -/
def Node.extend (repo : Repo) (self other : Node) : Except String Node :=
  match Node.mergeAt self other.cid other with
  | some res => .ok res
  | none =>
    match repo.merge_base self.cid other.cid with
    | none => .error "Could not find merge base"
    | some mb =>
      match extendSide repo mb self with
      | .error e => .error e
      | .ok self2 =>
        match extendSide repo mb other with
        | .error e => .error e
        | .ok other2 => .ok (Node.merge self2 other2)

/-- The prefix-splicing step of Node::insert_commit (lines 61-70): when the new
commit does not descend from the current root, populate the chain from the
merge base up to the root and splice the root beneath it. -/
def insertPrefix (repo : Repo) (self : Node) (possible_branches : Branches)
    (mb : Oid) : Except String (Node × Branches) :=
  if mb ≠ self.cid then
    match Node.populate repo mb self.cid possible_branches self.action with
    | .error e => .error e
    | .ok pr =>
      match Node.extend repo pr.1 self with
      | .error e => .error e
      | .ok s => .ok (s, pr.2)
  else Except.ok (self, possible_branches)

/-- Node::insert_commit (src/graph/node.rs lines 51-82): splice a prefix chain
below the root when the new commit does not descend from it, then populate the
chain from the (possibly new) root to the commit and merge it in. -/
def Node.insert_commit (repo : Repo) (self : Node) (local_commit : Commit)
    (possible_branches : Branches) : Except String (Node × Branches) :=
  match repo.merge_base self.cid local_commit.id with
  | none => .error "Could not find merge base"
  | some mb =>
    match insertPrefix repo self possible_branches mb with
    | .error e => .error e
    | .ok sp =>
      match Node.populate repo sp.1.cid local_commit.id sp.2 Action.Pick with
      | .error e => .error e
      | .ok pr => .ok (Node.merge sp.1 pr.1, pr.2)

/-- The fold of Node::from_branches (lines 43-46): insert the remaining branch
commits one at a time. -/
def fromBranchesGo (repo : Repo) : List Oid → Node → Branches → Except String Node
  | [], root, _ => .ok root
  | id :: rest, root, bs =>
    match repo.find_commit id with
    | none => .error "panic: branch commit not found"
    | some c =>
      match Node.insert_commit repo root c bs with
      | .error e => .error e
      | .ok r => fromBranchesGo repo rest r.1 r.2

/-- The sort key of from_branches line 39: the name of the first branch at the
given commit id. -/
def nameKey (bs : Branches) (a b : Oid) : Prop :=
  bs.first_name a ≤ bs.first_name b

instance (bs : Branches) : DecidableRel (nameKey bs) := fun a b =>
  inferInstanceAs (Decidable (bs.first_name a ≤ bs.first_name b))

/-- Node::from_branches (src/graph/node.rs lines 30-49): error on an empty
index; otherwise sort the branch commit ids by the name of the first branch at
each id (a stable sort, as in the source), seed the root from the first id, and
fold the rest in with insert_commit. -/
def Node.from_branches (repo : Repo) (branches : Branches) : Except String Node :=
  if branches.is_empty then .error "no branches to graph"
  else
    match List.insertionSort (nameKey branches) branches.oids with
    | [] => .error "no branches to graph"
    | seed :: rest =>
      match repo.find_commit seed with
      | none => .error "panic: branch commit not found"
      | some c =>
        let r := Node.new c branches
        fromBranchesGo repo rest r.1 r.2

/-- Strictly increasing key list: the order invariant of an ordered map's key
sequence. -/
def keysOk (l : List Oid) : Bool := decide (l.Pairwise (· < ·))

mutual

/-- Every children map in the tree is ordered by commit id (the invariant the
BTreeMap representation guarantees in the source). -/
def Node.children_sorted (n : Node) : Bool :=
  match n with
  | .mk _ _ _ _ cs => keysOk (cs.map Prod.fst) && childrenSortedAll cs
termination_by sizeOf n

def childrenSortedAll (cs : List (Oid × Node)) : Bool :=
  match cs with
  | [] => true
  | (_, n) :: rest => n.children_sorted && childrenSortedAll rest
termination_by sizeOf cs

end

theorem keysOk_iff (l : List Oid) : keysOk l = true ↔ l.Pairwise (· < ·) := by
  simp [keysOk]

theorem children_sorted_mk (c : Commit) (br : List Branch) (a : Action) (p : Bool)
    (cs : List (Oid × Node)) :
    (Node.mk c br a p cs).children_sorted
      = (keysOk (cs.map Prod.fst) && childrenSortedAll cs) := by
  simp [Node.children_sorted]

theorem childrenSortedAll_nil : childrenSortedAll [] = true := by
  simp [childrenSortedAll]

theorem childrenSortedAll_cons (k : Oid) (n : Node) (rest : List (Oid × Node)) :
    childrenSortedAll ((k, n) :: rest)
      = (n.children_sorted && childrenSortedAll rest) := by
  simp [childrenSortedAll]

theorem mapFst_btInsert_subset (cs : List (Oid × Node)) (k : Oid) (v : Node) :
    ∀ x ∈ (btInsert cs k v).map Prod.fst, x = k ∨ x ∈ cs.map Prod.fst := by
  induction cs with
  | nil =>
    intro x hx
    simp only [btInsert, List.map_cons, List.map_nil, List.mem_singleton] at hx
    exact Or.inl hx
  | cons hd rest ih =>
    obtain ⟨k0, v0⟩ := hd
    intro x hx
    simp only [btInsert] at hx
    by_cases h1 : k < k0
    · rw [if_pos h1] at hx
      simp only [List.map_cons, List.mem_cons] at hx
      rcases hx with h | h | h
      · exact Or.inl h
      · right; simp [h]
      · right; simp [h]
    · rw [if_neg h1] at hx
      by_cases h2 : k = k0
      · rw [if_pos h2] at hx
        simp only [List.map_cons, List.mem_cons] at hx
        rcases hx with h | h
        · exact Or.inl h
        · right; simp [h]
      · rw [if_neg h2] at hx
        simp only [List.map_cons, List.mem_cons] at hx
        rcases hx with h | h
        · right; simp [h]
        · rcases ih x h with h3 | h3
          · exact Or.inl h3
          · right; simp [h3]

theorem keysOk_btInsert (cs : List (Oid × Node)) (k : Oid) (v : Node) :
    keysOk (cs.map Prod.fst) = true →
    keysOk ((btInsert cs k v).map Prod.fst) = true := by
  induction cs with
  | nil =>
    intro _
    rw [keysOk_iff]
    simp [btInsert]
  | cons hd rest ih =>
    obtain ⟨k0, v0⟩ := hd
    intro h
    rw [keysOk_iff] at h ⊢
    rw [keysOk_iff] at ih
    simp only [List.map_cons, List.pairwise_cons] at h
    obtain ⟨h0, h1⟩ := h
    simp only [btInsert]
    by_cases hlt : k < k0
    · rw [if_pos hlt]
      simp only [List.map_cons, List.pairwise_cons]
      refine ⟨?_, h0, h1⟩
      intro x hx
      simp only [List.mem_cons] at hx
      rcases hx with h | h
      · subst h; exact hlt
      · exact lt_trans hlt (h0 x h)
    · rw [if_neg hlt]
      by_cases heq : k = k0
      · rw [if_pos heq]
        subst heq
        simp only [List.map_cons, List.pairwise_cons]
        exact ⟨h0, h1⟩
      · rw [if_neg heq]
        have hgt : k0 < k := lt_of_le_of_ne (le_of_not_lt hlt) (fun h => heq h.symm)
        simp only [List.map_cons, List.pairwise_cons]
        refine ⟨?_, (keysOk_iff (List.map Prod.fst (btInsert rest k v))).mp (ih h1)⟩
        intro x hx
        rcases mapFst_btInsert_subset rest k v x hx with h | h
        · subst h; exact hgt
        · exact h0 x h

theorem mapFst_btReplace (cs : List (Oid × Node)) (k : Oid) (v : Node) :
    (btReplace cs k v).map Prod.fst = cs.map Prod.fst := by
  induction cs with
  | nil => simp [btReplace]
  | cons hd rest ih =>
    obtain ⟨k0, v0⟩ := hd
    simp only [btReplace]
    by_cases h : k0 = k
    · simp [h]
    · simp [h, ih]

theorem csa_btInsert (cs : List (Oid × Node)) (k : Oid) (v : Node) :
    childrenSortedAll cs = true → v.children_sorted = true →
    childrenSortedAll (btInsert cs k v) = true := by
  induction cs with
  | nil =>
    intro ha hv
    simp only [btInsert]
    rw [childrenSortedAll_cons, hv, childrenSortedAll_nil]
    rfl
  | cons hd rest ih =>
    obtain ⟨k0, v0⟩ := hd
    intro ha hv
    rw [childrenSortedAll_cons, Bool.and_eq_true] at ha
    obtain ⟨h0, h1⟩ := ha
    simp only [btInsert]
    by_cases hlt : k < k0
    · rw [if_pos hlt, childrenSortedAll_cons, childrenSortedAll_cons, hv, h0, h1]
      rfl
    · by_cases heq : k = k0
      · rw [if_neg hlt, if_pos heq, childrenSortedAll_cons, hv, h1]
        rfl
      · rw [if_neg hlt, if_neg heq, childrenSortedAll_cons, h0, ih h1 hv]
        rfl


theorem csa_btReplace (cs : List (Oid × Node)) (k : Oid) (v : Node) :
    childrenSortedAll cs = true → v.children_sorted = true →
    childrenSortedAll (btReplace cs k v) = true := by
  induction cs with
  | nil => intro ha hv; simpa [btReplace] using ha
  | cons hd rest ih =>
    obtain ⟨k0, v0⟩ := hd
    intro ha hv
    rw [childrenSortedAll_cons, Bool.and_eq_true] at ha
    obtain ⟨h0, h1⟩ := ha
    simp only [btReplace]
    by_cases h : k0 = k
    · rw [if_pos h, childrenSortedAll_cons, hv, h1]
      rfl
    · rw [if_neg h, childrenSortedAll_cons, h0, ih h1 hv]
      rfl

theorem btLookup_mem (cs : List (Oid × Node)) (k : Oid) (n : Node)
    (h : btLookup cs k = some n) : (k, n) ∈ cs := by
  induction cs with
  | nil => simp [btLookup] at h
  | cons hd rest ih =>
    obtain ⟨k0, v0⟩ := hd
    simp only [btLookup] at h
    split at h
    · next he =>
      simp only [Option.some.injEq] at h
      subst he
      subst h
      exact List.mem_cons_self _ _
    · exact List.mem_cons_of_mem _ (ih h)

theorem csa_mem (cs : List (Oid × Node)) :
    childrenSortedAll cs = true →
    ∀ (k : Oid) (n : Node), (k, n) ∈ cs → n.children_sorted = true := by
  induction cs with
  | nil => intro _ k n hm; simp at hm
  | cons hd rest ih =>
    obtain ⟨k0, v0⟩ := hd
    intro ha k n hm
    rw [childrenSortedAll_cons, Bool.and_eq_true] at ha
    rcases List.mem_cons.mp hm with h | h
    · injection h with h1 h2
      subst h2
      exact ha.1
    · exact ih ha.2 k n h

mutual

theorem sc_merge : (a b : Node) → a.children_sorted = true →
    b.children_sorted = true → (Node.merge a b).children_sorted = true
  | .mk c br ac pu cs, .mk c2 br2 ac2 pu2 ocs, h1, h2 => by
    rw [children_sorted_mk, Bool.and_eq_true] at h1 h2
    have h := sc_mergeChildren cs ocs h1.1 h1.2 h2.2
    simp only [Node.merge]
    rw [children_sorted_mk, Bool.and_eq_true]
    exact h
termination_by a b => sizeOf b

theorem sc_mergeChildren : (cs ocs : List (Oid × Node)) →
    keysOk (cs.map Prod.fst) = true → childrenSortedAll cs = true →
    childrenSortedAll ocs = true →
    keysOk ((mergeChildren cs ocs).map Prod.fst) = true
      ∧ childrenSortedAll (mergeChildren cs ocs) = true
  | cs, [], hk, ha, _ => by
    simp only [mergeChildren]
    exact ⟨hk, ha⟩
  | cs, (k, oc) :: rest, hk, ha, ho => by
    rw [childrenSortedAll_cons, Bool.and_eq_true] at ho
    obtain ⟨hoc, hrest⟩ := ho
    simp only [mergeChildren]
    cases hl : btLookup cs k with
    | some n =>
      have hn : n.children_sorted = true := csa_mem cs ha k n (btLookup_mem cs k n hl)
      have hm := sc_merge n oc hn hoc
      have hk2 : keysOk ((btReplace cs k (Node.merge n oc)).map Prod.fst) = true := by
        rw [mapFst_btReplace]; exact hk
      have ha2 := csa_btReplace cs k (Node.merge n oc) ha hm
      exact sc_mergeChildren (btReplace cs k (Node.merge n oc)) rest hk2 ha2 hrest
    | none =>
      exact sc_mergeChildren (btInsert cs k oc) rest (keysOk_btInsert cs k oc hk)
        (csa_btInsert cs k oc ha hoc) hrest
termination_by cs ocs => sizeOf ocs

end

mutual

theorem sc_mergeAt : (self : Node) → (id : Oid) → (other : Node) →
    self.children_sorted = true → other.children_sorted = true →
    ∀ res, Node.mergeAt self id other = some res → res.children_sorted = true
  | .mk c br ac pu cs, id, other, h1, h2, res, hres => by
    simp only [Node.mergeAt] at hres
    split at hres
    · simp only [Option.some.injEq] at hres
      subst hres
      exact sc_merge (Node.mk c br ac pu cs) other h1 h2
    · split at hres
      · next cs2 hmc =>
        simp only [Option.some.injEq] at hres
        subst hres
        rw [children_sorted_mk, Bool.and_eq_true] at h1 ⊢
        have h := sc_mergeAtChildren cs id other h1.2 h2 cs2 hmc
        refine ⟨?_, h.2⟩
        rw [h.1]
        exact h1.1
      · cases hres
termination_by self id other => sizeOf self

theorem sc_mergeAtChildren : (cs : List (Oid × Node)) → (id : Oid) → (other : Node) →
    childrenSortedAll cs = true → other.children_sorted = true →
    ∀ cs2, mergeAtChildren cs id other = some cs2 →
      cs2.map Prod.fst = cs.map Prod.fst ∧ childrenSortedAll cs2 = true
  | [], id, other, _, _, cs2, h => by simp [mergeAtChildren] at h
  | (k, n) :: rest, id, other, ha, h2, cs2, h => by
    rw [childrenSortedAll_cons, Bool.and_eq_true] at ha
    obtain ⟨hn, hrest⟩ := ha
    simp only [mergeAtChildren] at h
    split at h
    · next n2 hm =>
      simp only [Option.some.injEq] at h
      subst h
      have hs := sc_mergeAt n id other hn h2 n2 hm
      constructor
      · simp
      · rw [childrenSortedAll_cons, hs, hrest]
        rfl
    · split at h
      · next rest2 hr =>
        simp only [Option.some.injEq] at h
        subst h
        have hs := sc_mergeAtChildren rest id other hrest h2 rest2 hr
        constructor
        · simp [hs.1]
        · rw [childrenSortedAll_cons, hn, hs.2]
          rfl
      · cases h
termination_by cs id other => sizeOf cs

end

theorem sc_new (c : Commit) (bs : Branches) :
    (Node.new c bs).1.children_sorted = true := by
  rw [Node.new]
  rw [children_sorted_mk]
  simp [keysOk, childrenSortedAll_nil]

theorem sc_with_action (n : Node) (a : Action)
    (h : n.children_sorted = true) : (n.with_action a).children_sorted = true := by
  cases n with
  | mk c br ac pu cs =>
    rw [Node.with_action, children_sorted_mk]
    rw [children_sorted_mk] at h
    exact h

theorem sc_populateGo (cs : List Commit) :
    ∀ (base : Oid) (act : Action) (child : Node) (bs : Branches),
    child.children_sorted = true →
    ((populateGo base act cs child bs).1).children_sorted = true := by
  induction cs with
  | nil =>
    intro base act child bs h
    simpa [populateGo] using h
  | cons c rest ih =>
    intro base act child bs h
    have hroot : (Node.mk c ((Node.new c bs).1.branches) act false
        (btInsert [] child.cid child)).children_sorted = true := by
      rw [children_sorted_mk]
      simp only [btInsert]
      rw [Bool.and_eq_true]
      constructor
      · rw [keysOk_iff]; simp
      · rw [childrenSortedAll_cons, h, childrenSortedAll_nil]
        rfl
    simp only [populateGo]
    split
    · exact hroot
    · exact ih base act _ _ hroot

theorem sc_populate (repo : Repo) (base head : Oid) (bs : Branches) (act : Action)
    (pr : Node × Branches) (h : Node.populate repo base head bs act = .ok pr) :
    pr.1.children_sorted = true := by
  simp only [Node.populate] at h
  split at h
  · cases h
  · split at h
    · cases h
    · split at h
      · cases h
      · next hc hfc =>
        split at h
        · cases h
        · next first rest hcf =>
          split at h
          · cases h
          · split at h
            · simp only [Except.ok.injEq] at h
              subst h
              exact sc_with_action (Node.new hc bs).1 act (sc_new hc bs)
            · simp only [Except.ok.injEq] at h
              subst h
              exact sc_populateGo rest base act ((Node.new hc bs).1.with_action act)
                (Node.new hc bs).2 (sc_with_action (Node.new hc bs).1 act (sc_new hc bs))

theorem sc_extendSide (repo : Repo) (mb : Oid) (n : Node)
    (hn : n.children_sorted = true) :
    ∀ s, extendSide repo mb n = .ok s → s.children_sorted = true := by
  intro s hs
  simp only [extendSide] at hs
  split at hs
  · simp only [Except.ok.injEq] at hs
    subst hs
    exact hn
  · split at hs
    · cases hs
    · next pr hp =>
      split at hs
      · next s2 hma =>
        simp only [Except.ok.injEq] at hs
        subst hs
        exact sc_mergeAt pr.1 n.cid n
          (sc_populate repo mb n.cid Branches.empty n.action pr hp) hn s2 hma
      · cases hs

theorem sc_extend (repo : Repo) (self other : Node)
    (h1 : self.children_sorted = true) (h2 : other.children_sorted = true) :
    ∀ res, Node.extend repo self other = .ok res → res.children_sorted = true := by
  intro res h
  simp only [Node.extend] at h
  split at h
  · next r hma =>
    simp only [Except.ok.injEq] at h
    subst h
    exact sc_mergeAt self other.cid other h1 h2 r hma
  · split at h
    · cases h
    · next mb hmb =>
      split at h
      · cases h
      · next self2 hs2 =>
        split at h
        · cases h
        · next other2 ho2 =>
          simp only [Except.ok.injEq] at h
          subst h
          exact sc_merge self2 other2 (sc_extendSide repo mb self h1 self2 hs2)
            (sc_extendSide repo mb other h2 other2 ho2)

theorem sc_insertPrefix (repo : Repo) (self : Node) (bs : Branches) (mb : Oid)
    (h1 : self.children_sorted = true) :
    ∀ sp, insertPrefix repo self bs mb = .ok sp → sp.1.children_sorted = true := by
  intro sp h
  simp only [insertPrefix] at h
  split at h
  · split at h
    · cases h
    · next pr hp =>
      split at h
      · cases h
      · next s hs =>
        simp only [Except.ok.injEq] at h
        subst h
        exact sc_extend repo pr.1 self
          (sc_populate repo mb self.cid bs self.action pr hp) h1 s hs
  · simp only [Except.ok.injEq] at h
    subst h
    exact h1

theorem sc_insert_commit (repo : Repo) (self : Node) (c : Commit) (bs : Branches)
    (h1 : self.children_sorted = true) :
    ∀ r, Node.insert_commit repo self c bs = .ok r → r.1.children_sorted = true := by
  intro r h
  simp only [Node.insert_commit] at h
  split at h
  · cases h
  · split at h
    · cases h
    · next sp hsp =>
      split at h
      · cases h
      · next pr hp =>
        simp only [Except.ok.injEq] at h
        subst h
        exact sc_merge sp.1 pr.1 (sc_insertPrefix repo self bs _ h1 sp hsp)
          (sc_populate repo sp.1.cid c.id sp.2 Action.Pick pr hp)

theorem sc_fromBranchesGo (repo : Repo) (ids : List Oid) :
    ∀ (root : Node) (bs : Branches), root.children_sorted = true →
    ∀ t, fromBranchesGo repo ids root bs = .ok t → t.children_sorted = true := by
  induction ids with
  | nil =>
    intro root bs h t ht
    simp only [fromBranchesGo, Except.ok.injEq] at ht
    subst ht
    exact h
  | cons id rest ih =>
    intro root bs h t ht
    simp only [fromBranchesGo] at ht
    split at ht
    · cases ht
    · next c hc =>
      split at ht
      · cases ht
      · next r hr =>
        exact ih r.1 r.2 (sc_insert_commit repo root c bs h r hr) t ht
instance (bs : Branches) : IsTotal Oid (nameKey bs) :=
  ⟨fun a b => le_total (bs.first_name a) (bs.first_name b)⟩

instance (bs : Branches) : IsTrans Oid (nameKey bs) :=
  ⟨fun a b c hab hbc => le_trans hab hbc⟩

/-- C3: Node::populate returns an error whenever merge_base(base, head) is not
base itself (head must descend from base), so no node tree is produced. -/
theorem c3_populate_requires_descendant (repo : Repo) (base head : Oid)
    (bs : Branches) (act : Action)
    (h : repo.merge_base base head ≠ some base) :
    ∃ e, Node.populate repo base head bs act = .error e := by
  cases hm : repo.merge_base base head with
  | none =>
    exact ⟨"Could not find merge base", by simp [Node.populate, hm]⟩
  | some m =>
    have hne : m ≠ base := fun he => h (by rw [hm, he])
    exact ⟨"HEAD must be a descendant of base", by simp [Node.populate, hm, hne]⟩

/-- A three-commit linear repo 1 <- 2 <- 3 used as concrete witness input. -/
def chainAnc : Oid → List Nat
  | 1 => [1]
  | 2 => [2, 1]
  | 3 => [3, 2, 1]
  | _ => []

def chainCommit (i : Oid) : Commit := ⟨i, 100 + i, "c"⟩

def repoW : Repo where
  merge_base a b := (chainAnc a).find? (fun x => (chainAnc b).contains x)
  find_commit i := if i = 0 ∨ 3 < i then none else some (chainCommit i)
  commits_from i := (chainAnc i).map chainCommit

/-- C3 witness: at base 3, head 1 the merge base is 1, not 3, and populate
errors. -/
theorem c3_witness :
    repoW.merge_base 3 1 ≠ some 3
      ∧ ∃ e, Node.populate repoW 3 1 Branches.empty Action.Pick = .error e :=
  ⟨by decide, c3_populate_requires_descendant repoW 3 1 Branches.empty Action.Pick (by decide)⟩

/-- C4: graph construction by Node::from_branches on a fixed repo snapshot and
non-empty branch set is deterministic (equal runs give structurally equal
trees), seeds the root from the branch whose name sorts first among the branch
commit ids, and every children map in any produced tree is ordered by commit
id. -/
theorem c4_from_branches_deterministic (repo : Repo) (bs : Branches)
    (hne : bs.is_empty = false) :
    (∀ t u, Node.from_branches repo bs = .ok t → Node.from_branches repo bs = .ok u → t = u)
    ∧ (∃ seed rest, List.insertionSort (nameKey bs) bs.oids = seed :: rest
        ∧ ∀ id ∈ bs.oids, bs.first_name seed ≤ bs.first_name id)
    ∧ (∀ t, Node.from_branches repo bs = .ok t → t.children_sorted = true) := by
  refine ⟨?_, ?_, ?_⟩
  · intro t u ht hu
    rw [ht] at hu
    injection hu
  · have hlen : bs.oids ≠ [] := by
      intro h0
      simp only [Branches.oids] at h0
      have hb : bs.buckets = [] := List.map_eq_nil_iff.mp h0
      rw [Branches.is_empty, hb] at hne
      simp at hne
    have hperm := List.perm_insertionSort (nameKey bs) bs.oids
    have hsorted := List.sorted_insertionSort (nameKey bs) bs.oids
    cases hs : List.insertionSort (nameKey bs) bs.oids with
    | nil =>
      exfalso
      have hlen0 := hperm.length_eq
      rw [hs] at hlen0
      simp only [List.length_nil] at hlen0
      exact hlen (List.length_eq_zero.mp hlen0.symm)
    | cons seed rest =>
      refine ⟨seed, rest, rfl, ?_⟩
      intro id hid
      have hmem : id ∈ seed :: rest := by
        rw [← hs]
        exact (hperm.mem_iff).mpr hid
      rcases List.mem_cons.mp hmem with h | h
      · subst h; exact le_refl _
      · rw [hs] at hsorted
        exact List.rel_of_sorted_cons hsorted id h
  · intro t ht
    simp only [Node.from_branches] at ht
    split at ht
    · cases ht
    · split at ht
      · cases ht
      · next seed rest hs =>
        split at ht
        · cases ht
        · next c hc =>
          exact sc_fromBranchesGo repo rest (Node.new c bs).1 (Node.new c bs).2
            (sc_new c bs) t ht

/-- Concrete branch index for the C4 witness: branch a at commit 2, branch b at
commit 3. -/
def bsW : Branches := ⟨[(2, [⟨"a", 2, none, none⟩]), (3, [⟨"b", 3, none, none⟩])]⟩

/-- C4 witness: the branch set (a at 2, b at 3) on the linear three-commit repo
is non-empty, and the theorem applies to it. -/
theorem c4_witness :
    bsW.is_empty = false
      ∧ ((∀ t u, Node.from_branches repoW bsW = .ok t →
            Node.from_branches repoW bsW = .ok u → t = u)
        ∧ (∃ seed rest, List.insertionSort (nameKey bsW) bsW.oids = seed :: rest
            ∧ ∀ id ∈ bsW.oids, bsW.first_name seed ≤ bsW.first_name id)
        ∧ (∀ t, Node.from_branches repoW bsW = .ok t → t.children_sorted = true)) :=
  ⟨rfl, c4_from_branches_deterministic repoW bsW rfl⟩

/-- The observable effects of a run of the stack command: log and warning
emissions, subprocess invocations (fetch, push), ref mutations (branch set,
branch delete, switch, detach), the backup snapshot, and the show output. -/
inductive Eff where
  | logPull (remote branch : String)
  | warnSkipPullErr (branch : String)
  | warnSkipPullUnprotected (branch : String)
  | warnDropFailed
  | logTrace (s : String)
  | fetch (remote branch : String)
  | setBranch (name : String) (tip : Oid)
  | deleteBranch (name : String)
  | switch (name : String)
  | detach
  | pushCmd (remote branch : String)
  | errorRestack (branch : String)
  | backup
  | showOut
  | infoUndo
deriving DecidableEq

/-- Effects that are pure log or warning emissions (no subprocess, no ref
change, no backup, no output side effect beyond the logger). -/
def Eff.is_log : Eff → Bool
  | .logPull _ _ => true
  | .warnSkipPullErr _ => true
  | .warnSkipPullUnprotected _ => true
  | .warnDropFailed => true
  | .logTrace _ => true
  | .errorRestack _ => true
  | .infoUndo => true
  | _ => false

/-- Effects that create, delete or move a ref (local branch refs and HEAD). -/
def Eff.is_ref_mutation : Eff → Bool
  | .setBranch _ _ => true
  | .deleteBranch _ => true
  | .switch _ => true
  | .detach => true
  | _ => false

/-- A per-branch re-stack failure as the executor reports it: the branch name
and its blocked dependents (stack.rs line 280). -/
structure RFail where
  name : String
  dependents : List String
deriving DecidableEq

/-- The graph node type the push phase of stack.rs consumes at lines 714-764:
branch list, action, pushable flag, and nested stacks of child nodes. The type
itself lives in the graph module outside src/; the field set here is exactly
what git_push_internal reads. -/
inductive PushNode where
  | mk (branches : List Branch) (action : Action) (pushable : Bool)
      («stacks» : List (List PushNode))

def PushNode.branches : PushNode → List Branch
  | .mk bs _ _ _ => bs

def PushNode.action : PushNode → Action
  | .mk _ a _ _ => a

def PushNode.pushable : PushNode → Bool
  | .mk _ _ p _ => p

def PushNode.«stacks» : PushNode → List (List PushNode)
  | .mk _ _ _ s => s

/-- Modelled from the spec: the ambient repository, subprocess and collaborator
environment that stack.rs interacts with (sections 4.1, 4.8, 4.9, 4.10; the
git module, executor and backup stack are outside src/). Read queries are pure
functions of the environment snapshot; each fallible mutating operation has a
success flag; the executor's per-script failure lists, the planned-script
success, the push-phase graph, and the rebase outcome are environment inputs. -/
structure Env where
  pull_remote : String
  push_remote : String
  is_dirty : Bool
  find_local_branch : String → Option Branch
  remote_tip : String → Option Oid
  fetch_ok : String → Bool
  merge_base : Oid → Oid → Option Oid
  rebase_onto : Oid → Oid → Oid → Except String Oid
  head_branch : Option Branch
  commits_from : Oid → List Commit
  switch_ok : String → Bool
  delete_ok : String → Bool
  detach_ok : Bool
  set_branch_ok : String → Bool
  update_ok : Bool
  plan_ok : Bool
  exec_results : Nat → List RFail
  exec_dirty : Bool
  backup_ok : Bool
  close_ok : Bool
  push_ok : String → Bool
  push_root : Except String PushNode
  show_ok : Bool

/-- git_pull (src/bin/git-stack/stack.rs lines 472-653): log the pull, return
the local tip pair immediately under dry_run; otherwise fetch via a git
subprocess, look up the local and remote tips, compute the merge base (an
error when there is none), return (local, local) when the branch is already
up to date, otherwise rebase base..local onto the remote tip in memory and
move the branch ref to the new tip (detaching and re-attaching when HEAD is on
the branch). Returns the pulled range (merge base, remote tip). -/
def git_pull (env : Env) (branch_name : String) (dry_run : Bool) :
    Except String (Oid × Oid) × List Eff :=
  let remote := env.pull_remote
  let e0 : List Eff := [Eff.logPull remote branch_name]
  if dry_run then
    match env.find_local_branch branch_name with
    | some b => (.ok (b.id, b.id), e0)
    | none => (.error "panic: local branch not found", e0)
  else
    let e1 := e0 ++ [Eff.fetch remote branch_name]
    if env.fetch_ok branch_name = false then (.error "git fetch failed", e1)
    else
      match env.find_local_branch branch_name with
      | none => (.error "local branch does not exist", e1)
      | some local_branch =>
        match env.remote_tip branch_name with
        | none => (.error "remote branch does not exist", e1)
        | some end_id =>
          match env.merge_base local_branch.id end_id with
          | none => (.error "No common base", e1)
          | some base_id =>
            if env.merge_base local_branch.id end_id = some end_id then
              (.ok (local_branch.id, local_branch.id), e1)
            else
              match env.rebase_onto local_branch.id base_id end_id with
              | .error e => (.error e, e1)
              | .ok tip_id =>
                if env.head_branch.map Branch.name = some branch_name then
                  if env.detach_ok = false then
                    (.error "failed to update branch (detach)", e1)
                  else
                    let e2 := e1 ++ [Eff.detach]
                    if env.set_branch_ok branch_name = false then
                      (.error "failed to update branch", e2)
                    else
                      let e3 := e2 ++ [Eff.setBranch branch_name tip_id]
                      if env.switch_ok branch_name = false then
                        (.error "failed to update branch (switch)", e3)
                      else (.ok (base_id, end_id), e3 ++ [Eff.switch branch_name])
                else
                  if env.set_branch_ok branch_name = false then
                    (.error "failed to update branch", e1)
                  else (.ok (base_id, end_id), e1 ++ [Eff.setBranch branch_name tip_id])

/-- Branch ordering used by the sort in drop_branches (stack.rs line 676); the
derived Rust ordering on Branch compares the name first, and branch names are
unique within an index. -/
def branchLe (a b : Branch) : Prop := a.name ≤ b.name

instance : DecidableRel branchLe := fun a b =>
  inferInstanceAs (Decidable (a.name ≤ b.name))

/-- One branch of the inner loop of drop_branches (stack.rs lines 677-696):
skip the pulled branch; if HEAD is on the branch, switch to the pulled branch
first; delete the branch (mutations guarded by dry_run, which still logs). -/
def drop_one (env : Env) (dry_run : Bool) (potential_head : String)
    (head_branch_name : Option String) (b : Branch) :
    Except String Unit × List Eff :=
  if b.name = potential_head then (.ok (), [])
  else if head_branch_name = some b.name then
    let e1 : List Eff := [Eff.logTrace "git switch"]
    if dry_run then (.ok (), e1 ++ [Eff.logTrace "git branch -D"])
    else if env.switch_ok potential_head = false then (.error "switch failed", e1)
    else
      let e2 := e1 ++ [Eff.switch potential_head, Eff.logTrace "git branch -D"]
      if env.delete_ok b.name = false then (.error "delete failed", e2)
      else (.ok (), e2 ++ [Eff.deleteBranch b.name])
  else
    let e1 : List Eff := [Eff.logTrace "git branch -D"]
    if dry_run then (.ok (), e1)
    else if env.delete_ok b.name = false then (.error "delete failed", e1)
    else (.ok (), e1 ++ [Eff.deleteBranch b.name])

/-- The branch loop of drop_branches: process branches in order, stopping at
the first error as the question-mark operator does. -/
def dropBranchList (env : Env) (dry_run : Bool) (potential_head : String)
    (head_branch_name : Option String) : List Branch → Except String Unit × List Eff
  | [] => (.ok (), [])
  | b :: rest =>
    match drop_one env dry_run potential_head head_branch_name b with
    | (.ok _, e) =>
      let r := dropBranchList env dry_run potential_head head_branch_name rest
      (r.1, e ++ r.2)
    | (.error err, e) => (.error err, e)

/-- The per-commit body of drop_branches (stack.rs lines 666-676): branches at
the commit minus the protected branches at it (hash sets, so deduplicated),
sorted, then dropped one at a time. -/
def drop_commit (env : Env) (branches protected_branches : Branches)
    (dry_run : Bool) (potential_head : String) (head_branch_name : Option String)
    (commit_id : Oid) : Except String Unit × List Eff :=
  let commit_branches := ((branches.get commit_id).getD []).dedup
  let commit_protected := ((protected_branches.get commit_id).getD []).dedup
  let commit_unprotected := List.insertionSort branchLe
    (commit_branches.filter (fun b => decide (b ∉ commit_protected)))
  dropBranchList env dry_run potential_head head_branch_name commit_unprotected

/-- The commit loop of drop_branches, stopping at the first error. -/
def dropCommitList (env : Env) (branches protected_branches : Branches)
    (dry_run : Bool) (potential_head : String) (head_branch_name : Option String) :
    List Oid → Except String Unit × List Eff
  | [] => (.ok (), [])
  | id :: rest =>
    match drop_commit env branches protected_branches dry_run potential_head
        head_branch_name id with
    | (.ok _, e) =>
      let r := dropCommitList env branches protected_branches dry_run
        potential_head head_branch_name rest
      (r.1, e ++ r.2)
    | (.error err, e) => (.error err, e)

/-- drop_branches (src/bin/git-stack/stack.rs lines 655-699): for every given
commit id, delete the non-protected branches at it other than the branch that
received the pull, switching off a branch first when HEAD is on it. -/
def drop_branches (env : Env) (commit_ids : List Oid) (potential_head : String)
    (branches protected_branches : Branches) (dry_run : Bool) :
    Except String Unit × List Eff :=
  dropCommitList env branches protected_branches dry_run potential_head
    (env.head_branch.map Branch.name) commit_ids

/-- The per-branch body of git_push_internal (stack.rs lines 720-753): push
pushable branches via a git subprocess (recording failures), log a skip
otherwise. -/
def push_branch (env : Env) (dry_run : Bool) (pushable : Bool) (action : Action)
    (b : Branch) : List String × List Eff :=
  if pushable then
    let e0 : List Eff := [Eff.logTrace "git push --force-with-lease --set-upstream"]
    if dry_run then ([], e0)
    else if env.push_ok b.name then ([], e0 ++ [Eff.pushCmd env.push_remote b.name])
    else ([b.name], e0 ++ [Eff.pushCmd env.push_remote b.name])
  else if action.is_protected || action.is_rebase then
    ([], [Eff.logTrace "Skipping push of protected branch"])
  else ([], [Eff.logTrace "Skipping push"])

/-- The branch loop of git_push_internal (line 720). -/
def push_branch_list (env : Env) (dry_run : Bool) (pushable : Bool)
    (action : Action) : List Branch → List String × List Eff
  | [] => ([], [])
  | b :: rest =>
    let r1 := push_branch env dry_run pushable action b
    let r2 := push_branch_list env dry_run pushable action rest
    (r1.1 ++ r2.1, r1.2 ++ r2.2)

mutual

/-- git_push_internal (src/bin/git-stack/stack.rs lines 714-764): push the
node's own branches; only when none of them failed, recurse into every node of
every child stack, collecting failures. -/
def git_push_internal (env : Env) (dry_run : Bool) (node : PushNode) :
    List String × List Eff :=
  match node with
  | .mk bs a p «stacks» =>
    let own := push_branch_list env dry_run p a bs
    if own.1.isEmpty then
      let sub := push_stacks env dry_run «stacks»
      (own.1 ++ sub.1, own.2 ++ sub.2)
    else own
termination_by sizeOf node

/-- The outer stacks loop of git_push_internal (line 756). -/
def push_stacks (env : Env) (dry_run : Bool) :
    List (List PushNode) → List String × List Eff
  | [] => ([], [])
  | s :: rest =>
    let r1 := push_stack env dry_run s
    let r2 := push_stacks env dry_run rest
    (r1.1 ++ r2.1, r1.2 ++ r2.2)
termination_by ss => sizeOf ss

/-- The inner stack loop of git_push_internal (line 757). -/
def push_stack (env : Env) (dry_run : Bool) : List PushNode → List String × List Eff
  | [] => ([], [])
  | n :: rest =>
    let r1 := git_push_internal env dry_run n
    let r2 := push_stack env dry_run rest
    (r1.1 ++ r2.1, r1.2 ++ r2.2)
termination_by ns => sizeOf ns

end

/-- git_push (stack.rs lines 701-712): run git_push_internal and fail when any
branch could not be pushed. -/
def git_push (env : Env) (dry_run : Bool) (root : PushNode) :
    Except String Unit × List Eff :=
  let r := git_push_internal env dry_run root
  if r.1.isEmpty then (.ok (), r.2) else (.error "could not push", r.2)

/-- StackState (stack.rs lines 179-183): one stack of the run. -/
structure StackState where
  base : Branch
  onto : Branch
  branches : Branches
deriving DecidableEq

/-- The State fields the verified phases read (stack.rs lines 9-24); display
preferences and the backup capacity are not modelled. -/
structure State where
  branches : Branches
  protected_branches : Branches
  «stacks» : List StackState
  rebase : Bool
  pull : Bool
  push : Bool
  dry_run : Bool
deriving DecidableEq

/-- The CLI flags State::new consumes (the args module is outside src/). -/
structure Args where
  rebase : Bool
  pull : Bool
  push : Bool
  dry_run : Bool
deriving DecidableEq

/-- The flag normalization at the top of State::new (stack.rs lines 35-41):
the pull flag forces the rebase flag on. Returns (rebase, pull, push). -/
def State.new_flags (args : Args) : Bool × Bool × Bool :=
  let rebase := args.rebase
  let rebase := if args.pull then true else rebase
  (rebase, args.pull, args.push)

/-- The per-stack pull attempt of the pull phase (stack.rs lines 212-233):
gated on the protected branch index containing the onto commit id; on a
successful pull collect the commit ids of the pulled range, on a failed pull
warn and skip, and warn without pulling when the gate fails. -/
def pull_step (env : Env) (st : State) (stack : StackState) : List Oid × List Eff :=
  if st.protected_branches.contains_oid stack.onto.id then
    match git_pull env stack.onto.name st.dry_run with
    | (.ok r, e) =>
      ((((env.commits_from r.2).takeWhile (fun c => c.id != r.1)).map Commit.id).dedup, e)
    | (.error _, e) => ([], e ++ [Eff.warnSkipPullErr stack.onto.name])
  else ([], [Eff.warnSkipPullUnprotected stack.onto.name])

/-- The pull-phase loop over stacks (stack.rs lines 210-250): accumulate
pulled ids across stacks, dropping branches obsoleted by each non-empty pull
(warning on a failed drop rather than aborting). -/
def pull_loop (env : Env) (st : State) : List StackState → List Oid → List Oid × List Eff
  | [], pulled => (pulled, [])
  | stack :: rest, pulled =>
    let sp := pull_step env st stack
    if sp.1.isEmpty then
      let r := pull_loop env st rest pulled
      (r.1, sp.2 ++ r.2)
    else
      let diff := sp.1.filter (fun i => decide (i ∉ pulled))
      let d := drop_branches env diff stack.onto.name st.branches
        st.protected_branches st.dry_run
      let e2 := match d.1 with
        | Except.ok _ => d.2
        | Except.error _ => d.2 ++ [Eff.warnDropFailed]
      let r := pull_loop env st rest (pulled ++ diff)
      (r.1, sp.2 ++ e2 ++ r.2)

/-- The script execution loop (stack.rs lines 277-287): scripts are planned
one per stack; the executor's per-script failures (environment inputs, the
executor is outside src/) are logged and clear the success flag. -/
def exec_loop (env : Env) : Nat → List Eff × Bool
  | 0 => ([], true)
  | n + 1 =>
    let r := exec_loop env n
    let fails := env.exec_results n
    (r.1 ++ fails.map (fun f => Eff.errorRestack f.name), r.2 && fails.isEmpty)

/-- Exit codes of proc_exit as stack.rs uses them: usage and config errors
exit 2, general failures exit 1. -/
inductive ECode where
  | usage
  | config
  | failure
deriving DecidableEq

/-- Outcome of the rebase phase: an abort code when it returned early, its
effects, the success flag, and whether a backup was taken. -/
structure RebaseOut where
  abort : Option ECode
  effs : List Eff
  success : Bool
  backed_up : Bool
deriving DecidableEq

/-- The rebase phase of stack (stack.rs lines 256-302): dirty gate, attached
HEAD gate, plan one script per stack, execute them collecting per-branch
failures, back up when the executor mutated anything, close the executor and
refresh the state. -/
def rebase_phase (env : Env) (st : State) : RebaseOut :=
  if st.rebase then
    if env.is_dirty then ⟨some ECode.usage, [], true, false⟩
    else
      match env.head_branch with
      | none => ⟨some ECode.usage, [], true, false⟩
      | some _ =>
        if env.plan_ok = false then ⟨some ECode.failure, [], true, false⟩
        else
          let ex := exec_loop env st.«stacks».length
          if env.exec_dirty then
            if env.backup_ok = false then ⟨some ECode.failure, ex.1, ex.2, true⟩
            else
              let e2 := ex.1 ++ [Eff.backup]
              if env.close_ok = false then ⟨some ECode.failure, e2, ex.2, true⟩
              else if env.update_ok = false then ⟨some ECode.failure, e2, ex.2, true⟩
              else ⟨none, e2, ex.2, true⟩
          else
            if env.close_ok = false then ⟨some ECode.failure, ex.1, ex.2, false⟩
            else if env.update_ok = false then ⟨some ECode.failure, ex.1, ex.2, false⟩
            else ⟨none, ex.1, ex.2, false⟩
  else ⟨none, [], true, false⟩

/-- The push phase of stack (stack.rs lines 304-307 and fn push lines 352-374):
the annotated graph for pushing is built by collaborators outside src/ and
enters as an environment input; git_push failures and a failed state refresh
abort with exit code 1. -/
def push_phase (env : Env) (st : State) : Option ECode × List Eff :=
  if st.push then
    match env.push_root with
    | .error _ => (some ECode.failure, [])
    | .ok root =>
      let r := git_push env st.dry_run root
      match r.1 with
      | .error _ => (some ECode.failure, r.2)
      | .ok _ =>
        if env.update_ok = false then (some ECode.failure, r.2)
        else (none, r.2)
  else (none, [])

/-- The pull phase of stack (stack.rs lines 205-254) without its leading dirty
gate: the per-stack pull loop followed by a state refresh when anything was
pulled. -/
def pull_phase (env : Env) (st : State) : Option ECode × List Eff :=
  if st.pull then
    let r := pull_loop env st st.«stacks» []
    if r.1.isEmpty then (none, r.2)
    else if env.update_ok then (none, r.2)
    else (some ECode.failure, r.2)
  else (none, [])

/-- The show phase (stack.rs line 309 and fn show): read-only rendering whose
failure exits with code 1. -/
def show_phase (env : Env) : Option ECode × List Eff :=
  if env.show_ok then (none, [Eff.showOut]) else (some ECode.failure, [])

/-- The stack orchestrator after State::new (src/bin/git-stack/stack.rs lines
198-320): the dirty gate of the pull phase, the pull loop, the rebase phase
(with its own dirty gate), the push phase, show, the backup hint, and the
final exit status, which is a failure exactly when some re-stack failed. -/
def stack (env : Env) (st : State) : Except ECode Unit × List Eff :=
  if st.pull && env.is_dirty then (.error ECode.usage, [])
  else
    let pl := pull_phase env st
    match pl.1 with
    | some c => (.error c, pl.2)
    | none =>
      let rb := rebase_phase env st
      match rb.abort with
      | some c => (.error c, pl.2 ++ rb.effs)
      | none =>
        let pp := push_phase env st
        match pp.1 with
        | some c => (.error c, pl.2 ++ rb.effs ++ pp.2)
        | none =>
          let sh := show_phase env
          match sh.1 with
          | some c => (.error c, pl.2 ++ rb.effs ++ pp.2 ++ sh.2)
          | none =>
            let effs := pl.2 ++ rb.effs ++ pp.2 ++ sh.2
              ++ (if rb.backed_up then [Eff.infoUndo] else [])
            if rb.success then (.ok (), effs) else (.error ECode.failure, effs)

/-- C10: State::new forces the rebase flag on whenever the pull flag is set,
so every invocation with the pull flag also enables the rebase phase even when
the rebase flag was not given. -/
theorem c10_pull_implies_rebase (args : Args) (h : args.pull = true) :
    (State.new_flags args).1 = true := by
  simp [State.new_flags, h]

/-- C10 witness: pull set, rebase not given; rebase is still forced on. -/
theorem c10_witness :
    (⟨false, true, false, false⟩ : Args).pull = true
      ∧ (State.new_flags ⟨false, true, false, false⟩).1 = true :=
  ⟨rfl, c10_pull_implies_rebase ⟨false, true, false, false⟩ rfl⟩

/-- C1: for an invocation whose args set the pull flag or the rebase flag
(with State::new forcing rebase on when pull is set), a dirty working tree
makes the run abort with a usage error (exit code 2) with an empty effect
trace: no backup is taken and no ref is created, deleted or moved. -/
theorem c1_dirty_tree_aborts (env : Env) (st : State) (args : Args)
    (hp : st.pull = args.pull) (hr : st.rebase = (State.new_flags args).1)
    (hflag : (args.pull || args.rebase) = true) (hd : env.is_dirty = true) :
    (stack env st).1 = .error ECode.usage
      ∧ Eff.backup ∉ (stack env st).2
      ∧ ∀ e ∈ (stack env st).2, e.is_ref_mutation = false := by
  have hmain : stack env st = (.error ECode.usage, []) := by
    cases hpv : args.pull with
    | true =>
      have h1 : st.pull = true := by rw [hp, hpv]
      simp [stack, h1, hd]
    | false =>
      have h1 : st.pull = false := by rw [hp, hpv]
      have h2 : args.rebase = true := by
        cases hrv : args.rebase with
        | true => rfl
        | false => rw [hpv, hrv] at hflag; simp at hflag
      have h3 : st.rebase = true := by
        rw [hr]; simp [State.new_flags, hpv, h2]
      simp [stack, pull_phase, rebase_phase, h1, h3, hd]
  rw [hmain]
  exact ⟨rfl, by simp, by simp⟩

def envBase : Env where
  pull_remote := "origin"
  push_remote := "origin"
  is_dirty := false
  find_local_branch := fun _ => none
  remote_tip := fun _ => none
  fetch_ok := fun _ => true
  merge_base := fun _ _ => none
  rebase_onto := fun _ _ _ => .error "conflict"
  head_branch := none
  commits_from := fun _ => []
  switch_ok := fun _ => true
  delete_ok := fun _ => true
  detach_ok := true
  set_branch_ok := fun _ => true
  update_ok := true
  plan_ok := true
  exec_results := fun _ => []
  exec_dirty := false
  backup_ok := true
  close_ok := true
  push_ok := fun _ => true
  push_root := .error "push graph not built"
  show_ok := true

def envC1 : Env := { envBase with is_dirty := true }

def argsC1 : Args := ⟨false, true, false, false⟩

def stC1 : State := ⟨Branches.empty, Branches.empty, [], true, true, false, false⟩

/-- C1 witness: pull flag set on a dirty tree; the run exits with the usage
code and the trace is free of backups and ref mutations. -/
theorem c1_witness :
    (stC1.pull = argsC1.pull ∧ stC1.rebase = (State.new_flags argsC1).1
      ∧ (argsC1.pull || argsC1.rebase) = true ∧ envC1.is_dirty = true)
    ∧ ((stack envC1 stC1).1 = .error ECode.usage
      ∧ Eff.backup ∉ (stack envC1 stC1).2
      ∧ ∀ e ∈ (stack envC1 stC1).2, e.is_ref_mutation = false) :=
  ⟨⟨rfl, rfl, rfl, rfl⟩, c1_dirty_tree_aborts envC1 stC1 argsC1 rfl rfl rfl rfl⟩

/-- C5: when the merge base of the local tip and the fetched remote tip equals
the remote tip, git_pull returns the pair (local tip, local tip) and moves no
ref: the branch is already up to date. -/
theorem c5_git_pull_up_to_date (env : Env) (branch_name : String) (lb : Branch)
    (rid : Oid)
    (hf : env.fetch_ok branch_name = true)
    (hl : env.find_local_branch branch_name = some lb)
    (hr : env.remote_tip branch_name = some rid)
    (hm : env.merge_base lb.id rid = some rid) :
    (git_pull env branch_name false).1 = .ok (lb.id, lb.id)
      ∧ ∀ e ∈ (git_pull env branch_name false).2, e.is_ref_mutation = false := by
  have hrun : git_pull env branch_name false
      = (.ok (lb.id, lb.id), [Eff.logPull env.pull_remote branch_name,
          Eff.fetch env.pull_remote branch_name]) := by
    simp [git_pull, hf, hl, hr, hm]
  rw [hrun]
  refine ⟨rfl, ?_⟩
  intro e he
  simp at he
  rcases he with h | h <;> subst h <;> rfl

def branchMain : Branch := ⟨"main", 5, none, none⟩

def envC5 : Env :=
  { envBase with
    find_local_branch := fun _ => some branchMain
    remote_tip := fun _ => some 5
    merge_base := fun _ _ => some 5 }

/-- C5 witness: local and remote tips coincide at commit 5; git_pull returns
(5, 5) and the trace has no ref mutation. -/
theorem c5_witness :
    (envC5.fetch_ok "main" = true
      ∧ envC5.find_local_branch "main" = some branchMain
      ∧ envC5.remote_tip "main" = some 5
      ∧ envC5.merge_base branchMain.id 5 = some 5)
    ∧ ((git_pull envC5 "main" false).1 = .ok (branchMain.id, branchMain.id)
      ∧ ∀ e ∈ (git_pull envC5 "main" false).2, e.is_ref_mutation = false) :=
  ⟨⟨rfl, rfl, rfl, rfl⟩, c5_git_pull_up_to_date envC5 "main" branchMain 5 rfl rfl rfl rfl⟩

theorem git_pull_dry (env : Env) (name : String) :
    (∀ b, env.find_local_branch name = some b →
      (git_pull env name true).1 = .ok (b.id, b.id))
    ∧ ∀ e ∈ (git_pull env name true).2, e.is_log = true := by
  constructor
  · intro b hb
    simp [git_pull, hb]
  · intro e he
    simp only [git_pull] at he
    rcases hf : env.find_local_branch name with _ | b <;>
      simp [hf] at he <;> subst he <;> rfl

theorem drop_one_dry (env : Env) (ph : String) (hn : Option String) (b : Branch) :
    ∀ e ∈ (drop_one env true ph hn b).2, e.is_log = true := by
  intro e he
  by_cases h1 : b.name = ph
  · simp [drop_one, h1] at he
  · by_cases h2 : hn = some b.name
    · simp [drop_one, h1, h2] at he
      rcases he with h | h <;> subst h <;> rfl
    · simp [drop_one, h1, h2] at he
      subst he
      rfl

theorem dropBranchList_dry (env : Env) (ph : String) (hn : Option String) :
    ∀ (l : List Branch), ∀ e ∈ (dropBranchList env true ph hn l).2, e.is_log = true := by
  intro l
  induction l with
  | nil => intro e he; simp [dropBranchList] at he
  | cons b rest ih =>
    intro e he
    simp only [dropBranchList] at he
    split at he
    · next u de heq =>
      rcases List.mem_append.mp he with h | h
      · exact drop_one_dry env ph hn b e (by rw [heq]; exact h)
      · exact ih e h
    · next er de heq =>
      exact drop_one_dry env ph hn b e (by rw [heq]; exact he)

theorem drop_commit_dry (env : Env) (bIdx pIdx : Branches) (ph : String)
    (hn : Option String) (id : Oid) :
    ∀ e ∈ (drop_commit env bIdx pIdx true ph hn id).2, e.is_log = true := by
  intro e he
  simp only [drop_commit] at he
  exact dropBranchList_dry env ph hn _ e he

theorem dropCommitList_dry (env : Env) (bIdx pIdx : Branches) (ph : String)
    (hn : Option String) :
    ∀ (ids : List Oid), ∀ e ∈ (dropCommitList env bIdx pIdx true ph hn ids).2,
      e.is_log = true := by
  intro ids
  induction ids with
  | nil => intro e he; simp [dropCommitList] at he
  | cons id rest ih =>
    intro e he
    simp only [dropCommitList] at he
    split at he
    · next u de heq =>
      rcases List.mem_append.mp he with h | h
      · exact drop_commit_dry env bIdx pIdx ph hn id e (by rw [heq]; exact h)
      · exact ih e h
    · next er de heq =>
      exact drop_commit_dry env bIdx pIdx ph hn id e (by rw [heq]; exact he)

theorem push_branch_dry (env : Env) (p : Bool) (a : Action) (b : Branch) :
    (push_branch env true p a b).1 = []
      ∧ ∀ e ∈ (push_branch env true p a b).2, e.is_log = true := by
  cases p with
  | true =>
    refine ⟨rfl, ?_⟩
    intro e he
    simp [push_branch] at he
    subst he
    rfl
  | false =>
    by_cases h : (a.is_protected || a.is_rebase) = true
    · refine ⟨by simp [push_branch, h], ?_⟩
      intro e he
      simp [push_branch, h] at he
      subst he
      rfl
    · refine ⟨by simp [push_branch, h], ?_⟩
      intro e he
      simp [push_branch, h] at he
      subst he
      rfl

theorem push_branch_list_dry (env : Env) (p : Bool) (a : Action) :
    ∀ (l : List Branch), (push_branch_list env true p a l).1 = []
      ∧ ∀ e ∈ (push_branch_list env true p a l).2, e.is_log = true := by
  intro l
  induction l with
  | nil => exact ⟨rfl, by intro e he; simp [push_branch_list] at he⟩
  | cons b rest ih =>
    constructor
    · simp [push_branch_list, (push_branch_dry env p a b).1, ih.1]
    · intro e he
      simp only [push_branch_list] at he
      rcases List.mem_append.mp he with h | h
      · exact (push_branch_dry env p a b).2 e h
      · exact ih.2 e h

mutual

theorem push_dry_node : (env : Env) → (n : PushNode) →
    (git_push_internal env true n).1 = []
      ∧ ∀ e ∈ (git_push_internal env true n).2, e.is_log = true
  | env, .mk bs a p ss => by
    have hown := push_branch_list_dry env p a bs
    have hsub := push_dry_stacks env ss
    constructor
    · simp [git_push_internal, hown.1, hsub.1]
    · intro e he
      simp only [git_push_internal] at he
      rw [hown.1] at he
      simp only [List.isEmpty_nil, if_true, List.nil_append] at he
      rcases List.mem_append.mp he with h | h
      · exact hown.2 e h
      · exact hsub.2 e h
termination_by env n => sizeOf n

theorem push_dry_stacks : (env : Env) → (ss : List (List PushNode)) →
    (push_stacks env true ss).1 = []
      ∧ ∀ e ∈ (push_stacks env true ss).2, e.is_log = true
  | env, [] => by
    constructor
    · simp [push_stacks]
    · intro e he; simp [push_stacks] at he
  | env, s :: rest => by
    have h1 := push_dry_stack env s
    have h2 := push_dry_stacks env rest
    constructor
    · simp [push_stacks, h1.1, h2.1]
    · intro e he
      simp only [push_stacks] at he
      rcases List.mem_append.mp he with h | h
      · exact h1.2 e h
      · exact h2.2 e h
termination_by env ss => sizeOf ss

theorem push_dry_stack : (env : Env) → (ns : List PushNode) →
    (push_stack env true ns).1 = []
      ∧ ∀ e ∈ (push_stack env true ns).2, e.is_log = true
  | env, [] => by
    constructor
    · simp [push_stack]
    · intro e he; simp [push_stack] at he
  | env, n :: rest => by
    have h1 := push_dry_node env n
    have h2 := push_dry_stack env rest
    constructor
    · simp [push_stack, h1.1, h2.1]
    · intro e he
      simp only [push_stack] at he
      rcases List.mem_append.mp he with h | h
      · exact h1.2 e h
      · exact h2.2 e h
termination_by env ns => sizeOf ns

end

/-- C2: with dry_run set no ref changes: git_pull returns the local tip pair
without fetching or rebasing, drop_branches performs no switch or delete,
git_push_internal spawns no push subprocess and records no failure; every
effect any of them emits is a log emission. -/
theorem c2_dry_run_pure (env : Env) (branch_name potential_head : String)
    (ids : List Oid) (bIdx pIdx : Branches) (root : PushNode) :
    ((∀ b, env.find_local_branch branch_name = some b →
        (git_pull env branch_name true).1 = .ok (b.id, b.id))
      ∧ (∀ e ∈ (git_pull env branch_name true).2, e.is_log = true)
      ∧ (∀ r n, Eff.fetch r n ∉ (git_pull env branch_name true).2))
    ∧ ((∀ e ∈ (drop_branches env ids potential_head bIdx pIdx true).2, e.is_log = true)
      ∧ (∀ n, Eff.switch n ∉ (drop_branches env ids potential_head bIdx pIdx true).2)
      ∧ (∀ n, Eff.deleteBranch n ∉ (drop_branches env ids potential_head bIdx pIdx true).2))
    ∧ ((git_push_internal env true root).1 = []
      ∧ (∀ e ∈ (git_push_internal env true root).2, e.is_log = true)
      ∧ (∀ r n, Eff.pushCmd r n ∉ (git_push_internal env true root).2)) := by
  have hpull := git_pull_dry env branch_name
  have hdrop := dropCommitList_dry env bIdx pIdx potential_head
    (env.head_branch.map Branch.name) ids
  have hpush := push_dry_node env root
  refine ⟨⟨hpull.1, hpull.2, ?_⟩, ⟨hdrop, ?_, ?_⟩, ⟨hpush.1, hpush.2, ?_⟩⟩
  · intro r n hmem
    have := hpull.2 _ hmem
    simp [Eff.is_log] at this
  · intro n hmem
    have := hdrop _ hmem
    simp [Eff.is_log] at this
  · intro n hmem
    have := hdrop _ hmem
    simp [Eff.is_log] at this
  · intro r n hmem
    have := hpush.2 _ hmem
    simp [Eff.is_log] at this

def envC2 : Env := { envBase with find_local_branch := fun _ => some branchMain }

def rootC2 : PushNode := .mk [branchMain] Action.Pick true []

/-- C2 witness: a dry run against a concrete environment returns the local tip
pair for the existing branch main, and all three functions emit only logs. -/
theorem c2_witness :
    envC2.find_local_branch "main" = some branchMain
      ∧ (git_pull envC2 "main" true).1 = .ok (branchMain.id, branchMain.id)
      ∧ (∀ e ∈ (git_pull envC2 "main" true).2, e.is_log = true)
      ∧ (∀ e ∈ (drop_branches envC2 [5] "main" bsW bsW true).2, e.is_log = true)
      ∧ (git_push_internal envC2 true rootC2).1 = []
      ∧ (∀ r n, Eff.pushCmd r n ∉ (git_push_internal envC2 true rootC2).2) := by
  have h := c2_dry_run_pure envC2 "main" "main" [5] bsW bsW rootC2
  exact ⟨rfl, h.1.1 branchMain rfl, h.1.2.1, h.2.1.1, h.2.2.1, h.2.2.2.2⟩

theorem git_pull_effs_head (env : Env) (name : String) (dry : Bool) :
    ∃ tl, (git_pull env name dry).2 = Eff.logPull env.pull_remote name :: tl := by
  simp only [git_pull]
  repeat' split
  all_goals exact ⟨_, rfl⟩

/-- C7 amended: during the pull phase a stack's fetch-and-rebase pull is
attempted (git_pull is invoked, observable as its leading pull log emission)
if and only if the protected-branch index contains the commit id of the
stack's onto branch; for any other stack the step emits exactly the skip
warning and nothing else (so no ref changes for that stack). -/
theorem c7_pull_gate (env : Env) (st : State) (stk : StackState) :
    (Eff.logPull env.pull_remote stk.onto.name ∈ (pull_step env st stk).2
      ↔ st.protected_branches.contains_oid stk.onto.id = true)
    ∧ (st.protected_branches.contains_oid stk.onto.id = false →
        (pull_step env st stk).2 = [Eff.warnSkipPullUnprotected stk.onto.name]) := by
  have hskip : st.protected_branches.contains_oid stk.onto.id = false →
      (pull_step env st stk).2 = [Eff.warnSkipPullUnprotected stk.onto.name] := by
    intro hc
    simp [pull_step, hc]
  refine ⟨⟨?_, ?_⟩, hskip⟩
  · intro hmem
    cases hc : st.protected_branches.contains_oid stk.onto.id with
    | true => rfl
    | false =>
      rw [hskip hc] at hmem
      simp at hmem
  · intro hc
    obtain ⟨tl, htl⟩ := git_pull_effs_head env stk.onto.name st.dry_run
    rcases hg : git_pull env stk.onto.name st.dry_run with ⟨res, effs⟩
    have heffs : effs = Eff.logPull env.pull_remote stk.onto.name :: tl := by
      rw [← htl, hg]
    cases res with
    | ok r => simp [pull_step, hc, hg, heffs]
    | error er => simp [pull_step, hc, hg, heffs]

/-- Modelled from the spec: the compiled protected-branch matcher of section 3
is abstracted as a predicate on branch names; here the concrete pattern set of
the counterexample matches exactly the name main. -/
def mX : String → Bool := fun n => n == "main"

def branchDev : Branch := ⟨"dev", 1, none, none⟩

def branchesX : Branches := ⟨[(1, [branchDev, ⟨"main", 1, none, none⟩])]⟩

def protectedX : Branches := branchesX.protectedBy mX

def stkX : StackState := ⟨branchDev, branchDev, branchesX⟩

def envX : Env := { envBase with find_local_branch := fun _ => some branchDev }

def stX : State := ⟨branchesX, protectedX, [stkX], true, true, false, true⟩

/-- C7 counterexample: the protected patterns match only the name main, the
branches dev and main sit on the same commit 1, and the stack's onto branch is
dev. The pull is attempted (the pull log emission is in the step's trace) even
though the onto branch name dev does not match the pattern set, so
attempted-iff-name-matches fails at this input. -/
theorem c7_counterexample :
    ¬ ((Eff.logPull envX.pull_remote stkX.onto.name ∈ (pull_step envX stX stkX).2)
        ↔ mX stkX.onto.name = true) := by
  decide

def stkY : StackState := ⟨branchDev, ⟨"other", 9, none, none⟩, branchesX⟩

/-- C7 witness: a stack whose onto commit id is absent from the protected
index is skipped with exactly the warning. -/
theorem c7_witness :
    stX.protected_branches.contains_oid stkY.onto.id = false
      ∧ (pull_step envX stX stkY).2 = [Eff.warnSkipPullUnprotected "other"] :=
  ⟨by decide, (c7_pull_gate envX stX stkY).2 (by decide)⟩

theorem drop_one_spec (env : Env) (ph : String) (hn : Option String) (b : Branch)
    (hsw : ∀ n, env.switch_ok n = true) (hdel : ∀ n, env.delete_ok n = true) :
    (drop_one env false ph hn b).1 = .ok ()
      ∧ ∀ name, Eff.deleteBranch name ∈ (drop_one env false ph hn b).2
          ↔ (b.name = name ∧ name ≠ ph) := by
  by_cases h1 : b.name = ph
  · refine ⟨by simp [drop_one, h1], ?_⟩
    intro name
    rw [show (drop_one env false ph hn b).2 = [] from by simp [drop_one, h1]]
    simp
    intro hbn
    exact hbn ▸ h1
  · by_cases h2 : hn = some b.name
    · refine ⟨by simp [drop_one, h1, h2, hsw, hdel], ?_⟩
      intro name
      rw [show (drop_one env false ph hn b).2
          = [Eff.logTrace "git switch", Eff.switch ph, Eff.logTrace "git branch -D",
             Eff.deleteBranch b.name] from by simp [drop_one, h1, h2, hsw, hdel]]
      simp
      constructor
      · intro h
        exact ⟨h.symm, fun hp => h1 (h ▸ hp)⟩
      · intro h
        exact h.1.symm
    · refine ⟨by simp [drop_one, h1, h2, hsw, hdel], ?_⟩
      intro name
      rw [show (drop_one env false ph hn b).2
          = [Eff.logTrace "git branch -D", Eff.deleteBranch b.name] from by
            simp [drop_one, h1, h2, hsw, hdel]]
      simp
      constructor
      · intro h
        exact ⟨h.symm, fun hp => h1 (h ▸ hp)⟩
      · intro h
        exact h.1.symm

theorem dropBranchList_spec (env : Env) (ph : String) (hn : Option String)
    (hsw : ∀ n, env.switch_ok n = true) (hdel : ∀ n, env.delete_ok n = true) :
    ∀ (l : List Branch),
      (dropBranchList env false ph hn l).1 = .ok ()
      ∧ ∀ name, Eff.deleteBranch name ∈ (dropBranchList env false ph hn l).2
          ↔ ∃ b ∈ l, b.name = name ∧ name ≠ ph := by
  intro l
  induction l with
  | nil =>
    refine ⟨rfl, ?_⟩
    intro name
    simp [dropBranchList]
  | cons b rest ih =>
    have hb := drop_one_spec env ph hn b hsw hdel
    rcases hd : drop_one env false ph hn b with ⟨res, de⟩
    have hres : res = .ok () := by
      have h := hb.1
      rw [hd] at h
      exact h
    subst hres
    have hde : ∀ name, Eff.deleteBranch name ∈ de ↔ (b.name = name ∧ name ≠ ph) := by
      intro name
      have h := hb.2 name
      rw [hd] at h
      exact h
    have hrun : dropBranchList env false ph hn (b :: rest)
        = ((dropBranchList env false ph hn rest).1,
           de ++ (dropBranchList env false ph hn rest).2) := by
      simp [dropBranchList, hd]
    constructor
    · rw [hrun]
      exact ih.1
    · intro name
      rw [hrun]
      simp only [List.mem_append]
      constructor
      · rintro (h | h)
        · exact ⟨b, List.mem_cons_self _ _, (hde name).mp h⟩
        · obtain ⟨b2, hb2, hprop⟩ := (ih.2 name).mp h
          exact ⟨b2, List.mem_cons_of_mem _ hb2, hprop⟩
      · rintro ⟨b2, hb2, hprop⟩
        rcases List.mem_cons.mp hb2 with h | h
        · subst h
          exact Or.inl ((hde name).mpr hprop)
        · exact Or.inr ((ih.2 name).mpr ⟨b2, h, hprop⟩)

theorem drop_commit_spec (env : Env) (bIdx pIdx : Branches) (ph : String)
    (hn : Option String) (id : Oid)
    (hsw : ∀ n, env.switch_ok n = true) (hdel : ∀ n, env.delete_ok n = true) :
    (drop_commit env bIdx pIdx false ph hn id).1 = .ok ()
      ∧ ∀ name, Eff.deleteBranch name ∈ (drop_commit env bIdx pIdx false ph hn id).2
          ↔ ∃ b ∈ (bIdx.get id).getD [], b ∉ (pIdx.get id).getD []
              ∧ b.name = name ∧ name ≠ ph := by
  have h := dropBranchList_spec env ph hn hsw hdel
    (List.insertionSort branchLe
      ((((bIdx.get id).getD []).dedup).filter
        (fun b => decide (b ∉ ((pIdx.get id).getD []).dedup))))
  constructor
  · simpa [drop_commit] using h.1
  · intro name
    have h2 := h.2 name
    rw [show (drop_commit env bIdx pIdx false ph hn id).2
        = (dropBranchList env false ph hn
            (List.insertionSort branchLe
              ((((bIdx.get id).getD []).dedup).filter
                (fun b => decide (b ∉ ((pIdx.get id).getD []).dedup))))).2 from by
          simp [drop_commit]]
    rw [h2]
    constructor
    · rintro ⟨b, hb, hprop⟩
      have hb2 := ((List.perm_insertionSort branchLe _).mem_iff).mp hb
      rw [List.mem_filter] at hb2
      obtain ⟨hmem, hflt⟩ := hb2
      rw [List.mem_dedup] at hmem
      refine ⟨b, hmem, ?_, hprop⟩
      have hnp := of_decide_eq_true hflt
      simpa [List.mem_dedup] using hnp
    · rintro ⟨b, hmem, hnp, hprop⟩
      refine ⟨b, ?_, hprop⟩
      apply ((List.perm_insertionSort branchLe _).mem_iff).mpr
      rw [List.mem_filter]
      refine ⟨List.mem_dedup.mpr hmem, decide_eq_true ?_⟩
      simpa [List.mem_dedup] using hnp

theorem dropCommitList_spec (env : Env) (bIdx pIdx : Branches) (ph : String)
    (hn : Option String)
    (hsw : ∀ n, env.switch_ok n = true) (hdel : ∀ n, env.delete_ok n = true) :
    ∀ (ids : List Oid),
      (dropCommitList env bIdx pIdx false ph hn ids).1 = .ok ()
      ∧ ∀ name, Eff.deleteBranch name ∈ (dropCommitList env bIdx pIdx false ph hn ids).2
          ↔ ∃ id ∈ ids, ∃ b ∈ (bIdx.get id).getD [], b ∉ (pIdx.get id).getD []
              ∧ b.name = name ∧ name ≠ ph := by
  intro ids
  induction ids with
  | nil =>
    refine ⟨rfl, ?_⟩
    intro name
    simp [dropCommitList]
  | cons id rest ih =>
    have hc := drop_commit_spec env bIdx pIdx ph hn id hsw hdel
    rcases hd : drop_commit env bIdx pIdx false ph hn id with ⟨res, de⟩
    have hres : res = .ok () := by
      have h := hc.1
      rw [hd] at h
      exact h
    subst hres
    have hde : ∀ name, Eff.deleteBranch name ∈ de
        ↔ ∃ b ∈ (bIdx.get id).getD [], b ∉ (pIdx.get id).getD []
            ∧ b.name = name ∧ name ≠ ph := by
      intro name
      have h := hc.2 name
      rw [hd] at h
      exact h
    have hrun : dropCommitList env bIdx pIdx false ph hn (id :: rest)
        = ((dropCommitList env bIdx pIdx false ph hn rest).1,
           de ++ (dropCommitList env bIdx pIdx false ph hn rest).2) := by
      simp [dropCommitList, hd]
    constructor
    · rw [hrun]
      exact ih.1
    · intro name
      rw [hrun]
      simp only [List.mem_append]
      constructor
      · rintro (h | h)
        · exact ⟨id, List.mem_cons_self _ _, (hde name).mp h⟩
        · obtain ⟨id2, hid2, hrest⟩ := (ih.2 name).mp h
          exact ⟨id2, List.mem_cons_of_mem _ hid2, hrest⟩
      · rintro ⟨id2, hid2, hrest⟩
        rcases List.mem_cons.mp hid2 with h | h
        · subst h
          exact Or.inl ((hde name).mpr hrest)
        · exact Or.inr ((ih.2 name).mpr ⟨id2, h, hrest⟩)

theorem mem_takeWhile_append {α : Type} (p : α → Bool) (x : α) :
    ∀ (l1 l2 : List α), x ∈ (l1 ++ l2).takeWhile p →
      x ∈ l1.takeWhile p ∨ x ∈ l2.takeWhile p := by
  intro l1
  induction l1 with
  | nil => intro l2 h; exact Or.inr h
  | cons a t ih =>
    intro l2 h
    by_cases hp : p a = true
    · rw [List.cons_append, List.takeWhile_cons_of_pos hp] at h
      rcases List.mem_cons.mp h with h1 | h1
      · subst h1
        left
        rw [List.takeWhile_cons_of_pos hp]
        exact List.mem_cons_self _ _
      · rcases ih l2 h1 with h2 | h2
        · left
          rw [List.takeWhile_cons_of_pos hp]
          exact List.mem_cons_of_mem _ h2
        · exact Or.inr h2
    · rw [List.cons_append, List.takeWhile_cons_of_neg hp] at h
      simp at h

/-- No deletion of the given branch occurs before the first switch to the
pulled branch in the trace. -/
def SwitchFirst (ph hname : String) (l : List Eff) : Prop :=
  Eff.deleteBranch hname ∉ l.takeWhile (fun e => decide (e ≠ Eff.switch ph))

theorem switchFirst_append (ph hname : String) (l1 l2 : List Eff)
    (h1 : SwitchFirst ph hname l1) (h2 : SwitchFirst ph hname l2) :
    SwitchFirst ph hname (l1 ++ l2) := by
  intro h
  rcases mem_takeWhile_append _ _ l1 l2 h with h3 | h3
  · exact h1 h3
  · exact h2 h3

theorem drop_one_switch_first (env : Env) (ph : String) (hn : Option String)
    (b : Branch) (hname : String) (hh : hn = some hname) (hne : hname ≠ ph)
    (hsw : ∀ n, env.switch_ok n = true) (hdel : ∀ n, env.delete_ok n = true) :
    SwitchFirst ph hname (drop_one env false ph hn b).2 := by
  by_cases h1 : b.name = ph
  · rw [show (drop_one env false ph hn b).2 = [] from by simp [drop_one, h1]]
    intro h
    simp at h
  · by_cases h2 : hn = some b.name
    · have hbn : hname = b.name := by
        rw [hh] at h2
        injection h2
      rw [show (drop_one env false ph hn b).2
          = [Eff.logTrace "git switch", Eff.switch ph, Eff.logTrace "git branch -D",
             Eff.deleteBranch b.name] from by simp [drop_one, h1, h2, hsw, hdel]]
      intro h
      rw [List.takeWhile_cons_of_pos (by simp),
        List.takeWhile_cons_of_neg (by simp)] at h
      simp at h
    · have hbn : b.name ≠ hname := by
        intro h
        rw [hh, h] at h2
        exact h2 rfl
      rw [show (drop_one env false ph hn b).2
          = [Eff.logTrace "git branch -D", Eff.deleteBranch b.name] from by
            simp [drop_one, h1, h2, hsw, hdel]]
      intro h
      have hmem := (List.takeWhile_sublist _).mem h
      simp at hmem
      exact hbn hmem.symm

theorem dropBranchList_switch_first (env : Env) (ph : String) (hn : Option String)
    (hname : String) (hh : hn = some hname) (hne : hname ≠ ph)
    (hsw : ∀ n, env.switch_ok n = true) (hdel : ∀ n, env.delete_ok n = true) :
    ∀ (l : List Branch), SwitchFirst ph hname (dropBranchList env false ph hn l).2 := by
  intro l
  induction l with
  | nil =>
    intro h
    simp [dropBranchList] at h
  | cons b rest ih =>
    have hb := drop_one_spec env ph hn b hsw hdel
    rcases hd : drop_one env false ph hn b with ⟨res, de⟩
    have hres : res = .ok () := by
      have h := hb.1
      rw [hd] at h
      exact h
    subst hres
    have hrun : dropBranchList env false ph hn (b :: rest)
        = ((dropBranchList env false ph hn rest).1,
           de ++ (dropBranchList env false ph hn rest).2) := by
      simp [dropBranchList, hd]
    rw [hrun]
    refine switchFirst_append ph hname de _ ?_ ih
    have := drop_one_switch_first env ph hn b hname hh hne hsw hdel
    rw [hd] at this
    exact this

theorem dropCommitList_switch_first (env : Env) (bIdx pIdx : Branches)
    (ph : String) (hn : Option String) (hname : String) (hh : hn = some hname)
    (hne : hname ≠ ph)
    (hsw : ∀ n, env.switch_ok n = true) (hdel : ∀ n, env.delete_ok n = true) :
    ∀ (ids : List Oid),
      SwitchFirst ph hname (dropCommitList env bIdx pIdx false ph hn ids).2 := by
  intro ids
  induction ids with
  | nil =>
    intro h
    simp [dropCommitList] at h
  | cons id rest ih =>
    have hc := drop_commit_spec env bIdx pIdx ph hn id hsw hdel
    rcases hd : drop_commit env bIdx pIdx false ph hn id with ⟨res, de⟩
    have hres : res = .ok () := by
      have h := hc.1
      rw [hd] at h
      exact h
    subst hres
    have hrun : dropCommitList env bIdx pIdx false ph hn (id :: rest)
        = ((dropCommitList env bIdx pIdx false ph hn rest).1,
           de ++ (dropCommitList env bIdx pIdx false ph hn rest).2) := by
      simp [dropCommitList, hd]
    rw [hrun]
    refine switchFirst_append ph hname de _ ?_ ih
    have hq : SwitchFirst ph hname (drop_commit env bIdx pIdx false ph hn id).2 := by
      simp only [drop_commit]
      exact dropBranchList_switch_first env ph hn hname hh hne hsw hdel _
    rw [hd] at hq
    exact hq

/-- C6: with all repo operations succeeding and dry_run off, drop_branches
deletes exactly the non-protected local branches pointing at a commit id in
the given set, except the branch that received the pull; and the branch HEAD
is on is never deleted before a switch to the pulled branch has occurred. -/
theorem c6_drop_branches_exact (env : Env) (ids : List Oid) (ph : String)
    (bIdx pIdx : Branches)
    (hsw : ∀ n, env.switch_ok n = true) (hdel : ∀ n, env.delete_ok n = true) :
    (drop_branches env ids ph bIdx pIdx false).1 = .ok ()
    ∧ (∀ name, Eff.deleteBranch name ∈ (drop_branches env ids ph bIdx pIdx false).2
        ↔ ∃ id ∈ ids, ∃ b ∈ (bIdx.get id).getD [],
            b ∉ (pIdx.get id).getD [] ∧ b.name = name ∧ name ≠ ph)
    ∧ (∀ hname, env.head_branch.map Branch.name = some hname → hname ≠ ph →
        SwitchFirst ph hname (drop_branches env ids ph bIdx pIdx false).2) := by
  have h := dropCommitList_spec env bIdx pIdx ph (env.head_branch.map Branch.name)
    hsw hdel ids
  refine ⟨h.1, h.2, ?_⟩
  intro hname hh hne
  exact dropCommitList_switch_first env bIdx pIdx ph _ hname hh hne hsw hdel ids

def envC6 : Env := { envBase with head_branch := some ⟨"feat", 7, none, none⟩ }

def bIdxC6 : Branches := ⟨[(7, [⟨"feat", 7, none, none⟩]), (5, [branchMain])]⟩

/-- C6 witness: pulled branch main; HEAD on feat at commit 7; no protected
branches. Applying the theorem at these inputs: the run succeeds, feat (at a
pulled commit, unprotected, not the pulled branch) is deleted, and its
deletion cannot precede the switch to main. -/
theorem c6_witness :
    ((∀ n, envC6.switch_ok n = true) ∧ (∀ n, envC6.delete_ok n = true)
      ∧ envC6.head_branch.map Branch.name = some "feat" ∧ "feat" ≠ "main")
    ∧ ((drop_branches envC6 [7] "main" bIdxC6 Branches.empty false).1 = .ok ()
      ∧ (Eff.deleteBranch "feat" ∈ (drop_branches envC6 [7] "main" bIdxC6 Branches.empty false).2)
      ∧ SwitchFirst "main" "feat"
          (drop_branches envC6 [7] "main" bIdxC6 Branches.empty false).2) := by
  have h := c6_drop_branches_exact envC6 [7] "main" bIdxC6 Branches.empty
    (fun _ => rfl) (fun _ => rfl)
  refine ⟨⟨fun _ => rfl, fun _ => rfl, rfl, by decide⟩, h.1, ?_, ?_⟩
  · apply (h.2.1 "feat").mpr
    refine ⟨7, by decide, ⟨"feat", 7, none, none⟩, by decide, by decide, rfl, by decide⟩
  · exact h.2.2 "feat" rfl (by decide)

theorem exec_loop_success_iff (env : Env) :
    ∀ n, (exec_loop env n).2 = true ↔ ∀ i < n, env.exec_results i = [] := by
  intro n
  induction n with
  | zero => simp [exec_loop]
  | succ n ih =>
    simp only [exec_loop, Bool.and_eq_true]
    constructor
    · rintro ⟨h1, h2⟩ i hi
      rcases Nat.lt_succ_iff_lt_or_eq.mp hi with h | h
      · exact (ih.mp h1) i h
      · subst h
        exact List.isEmpty_iff.mp h2
    · intro h
      refine ⟨ih.mpr (fun i hi => h i (Nat.lt_succ_of_lt hi)), ?_⟩
      exact List.isEmpty_iff.mpr (h n (Nat.lt_succ_self n))

theorem exec_loop_reports (env : Env) :
    ∀ n, ∀ i, i < n → ∀ f ∈ env.exec_results i,
      Eff.errorRestack f.name ∈ (exec_loop env n).1 := by
  intro n
  induction n with
  | zero => intro i hi; exact absurd hi (Nat.not_lt_zero i)
  | succ n ih =>
    intro i hi f hf
    simp only [exec_loop, List.mem_append]
    rcases Nat.lt_succ_iff_lt_or_eq.mp hi with h | h
    · exact Or.inl (ih i h f hf)
    · subst h
      exact Or.inr (List.mem_map.mpr ⟨f, hf, rfl⟩)

theorem pull_loop_warns (env : Env) (st : State) :
    ∀ (stks : List StackState), ∀ (pulled : List Oid), ∀ stk ∈ stks,
      st.protected_branches.contains_oid stk.onto.id = true →
      ∀ er, (git_pull env stk.onto.name st.dry_run).1 = .error er →
      Eff.warnSkipPullErr stk.onto.name ∈ (pull_loop env st stks pulled).2 := by
  intro stks
  induction stks with
  | nil => intro pulled stk h; simp at h
  | cons stk0 rest ih =>
    intro pulled stk hstk hc er hfail
    rcases List.mem_cons.mp hstk with h | h
    · subst h
      rcases hg : git_pull env stk.onto.name st.dry_run with ⟨res, effs⟩
      have hres : res = .error er := by
        have h2 := hfail
        rw [hg] at h2
        exact h2
      subst hres
      have hstep : pull_step env st stk
          = ([], effs ++ [Eff.warnSkipPullErr stk.onto.name]) := by
        simp [pull_step, hc, hg]
      simp [pull_loop, hstep]
    · simp only [pull_loop]
      split
      · exact List.mem_append.mpr (Or.inr (ih pulled stk h hc er hfail))
      · exact List.mem_append.mpr (Or.inr (ih _ stk h hc er hfail))

/-- C8 amended: failed re-stacks during script execution are reported, the run
continues with the remaining scripts and phases, and they alone determine the
failure exit status; a failed pull of a stack is reported with a warning and
the run continues with the remaining work, but it does not affect the exit
status. -/
theorem c8_error_collection (env : Env) (st : State)
    (hd : env.is_dirty = false)
    (hpull : st.pull = true)
    (hrebase : st.rebase = true)
    (hpush : st.push = false)
    (hb : ∃ b, env.head_branch = some b)
    (hplan : env.plan_ok = true)
    (hback : env.backup_ok = true)
    (hclose : env.close_ok = true)
    (hupd : env.update_ok = true)
    (hshow : env.show_ok = true) :
    ((stack env st).1 = .error ECode.failure
        ↔ ¬ ∀ i < st.«stacks».length, env.exec_results i = [])
    ∧ (∀ i, i < st.«stacks».length → ∀ f ∈ env.exec_results i,
        Eff.errorRestack f.name ∈ (stack env st).2)
    ∧ (∀ stk ∈ st.«stacks»,
        st.protected_branches.contains_oid stk.onto.id = true →
        ∀ er, (git_pull env stk.onto.name st.dry_run).1 = .error er →
        Eff.warnSkipPullErr stk.onto.name ∈ (stack env st).2) := by
  obtain ⟨b0, hbb⟩ := hb
  have h1 : (stack env st).1
      = (if (exec_loop env st.«stacks».length).2 then Except.ok ()
         else Except.error ECode.failure) := by
    cases hsucc : (exec_loop env st.«stacks».length).2 <;>
      cases hdirty : env.exec_dirty <;>
        simp [stack, pull_phase, rebase_phase, push_phase, show_phase, hpull, hd,
          hrebase, hbb, hplan, hback, hclose, hupd, hpush, hshow, hsucc, hdirty]
  have h2 : ∀ e ∈ (exec_loop env st.«stacks».length).1, e ∈ (stack env st).2 := by
    intro e he
    cases hsucc : (exec_loop env st.«stacks».length).2 <;>
      cases hdirty : env.exec_dirty <;>
        simp [stack, pull_phase, rebase_phase, push_phase, show_phase, hpull, hd,
          hrebase, hbb, hplan, hback, hclose, hupd, hpush, hshow, hsucc, hdirty, he]
  have h3 : ∀ e ∈ (pull_loop env st st.«stacks» []).2, e ∈ (stack env st).2 := by
    intro e he
    cases hsucc : (exec_loop env st.«stacks».length).2 <;>
      cases hdirty : env.exec_dirty <;>
        simp [stack, pull_phase, rebase_phase, push_phase, show_phase, hpull, hd,
          hrebase, hbb, hplan, hback, hclose, hupd, hpush, hshow, hsucc, hdirty, he]
  refine ⟨?_, ?_, ?_⟩
  · rw [h1]
    cases hsucc : (exec_loop env st.«stacks».length).2
    · have hne : ¬ ∀ i < st.«stacks».length, env.exec_results i = [] := by
        intro hall
        rw [(exec_loop_success_iff env st.«stacks».length).mpr hall] at hsucc
        cases hsucc
      exact iff_of_true rfl hne
    · have hall := (exec_loop_success_iff env st.«stacks».length).mp hsucc
      exact iff_of_false (by simp) (not_not_intro hall)
  · intro i hi f hf
    exact h2 _ (exec_loop_reports env st.«stacks».length i hi f hf)
  · intro stk hstk hc er hfail
    exact h3 _ (pull_loop_warns env st st.«stacks» [] stk hstk hc er hfail)

def protC8 : Branches := ⟨[(5, [branchMain])]⟩

def stkC8 : StackState := ⟨branchMain, branchMain, Branches.empty⟩

def stC8 : State := ⟨protC8, protC8, [stkC8], true, true, false, false⟩

def envC8 : Env :=
  { envBase with fetch_ok := fun _ => false, head_branch := some branchMain }

/-- C8 counterexample: the only stack's pull fails (its fetch subprocess
fails), no re-stack fails, and the run exits successfully while reporting the
pull failure as a warning: a failed pull does not produce a failure exit
status, contradicting the claim as stated. -/
theorem c8_counterexample :
    (git_pull envC8 "main" stC8.dry_run).1 = .error "git fetch failed"
      ∧ Eff.warnSkipPullErr "main" ∈ (stack envC8 stC8).2
      ∧ (stack envC8 stC8).1 = .ok () := by
  refine ⟨rfl, ?_, rfl⟩
  decide

/-- C8 witness: the amended theorem applied at the concrete failing-pull run:
all side conditions hold and the conclusions follow. -/
theorem c8_witness :
    (envC8.is_dirty = false ∧ stC8.pull = true ∧ stC8.rebase = true
      ∧ stC8.push = false ∧ envC8.head_branch = some branchMain
      ∧ envC8.plan_ok = true ∧ envC8.backup_ok = true ∧ envC8.close_ok = true
      ∧ envC8.update_ok = true ∧ envC8.show_ok = true)
    ∧ (((stack envC8 stC8).1 = .error ECode.failure
          ↔ ¬ ∀ i < stC8.«stacks».length, envC8.exec_results i = [])
      ∧ (∀ i, i < stC8.«stacks».length → ∀ f ∈ envC8.exec_results i,
          Eff.errorRestack f.name ∈ (stack envC8 stC8).2)
      ∧ (∀ stk ∈ stC8.«stacks»,
          stC8.protected_branches.contains_oid stk.onto.id = true →
          ∀ er, (git_pull envC8 stk.onto.name stC8.dry_run).1 = .error er →
          Eff.warnSkipPullErr stk.onto.name ∈ (stack envC8 stC8).2)) :=
  ⟨⟨rfl, rfl, rfl, rfl, rfl, rfl, rfl, rfl, rfl, rfl⟩,
   c8_error_collection envC8 stC8 rfl rfl rfl rfl ⟨branchMain, rfl⟩ rfl rfl rfl rfl rfl⟩

/-- The node-local failures of git_push_internal (lines 720-753): the failed
push names among the node's own branches. -/
def own_failed (env : Env) (dry : Bool) (n : PushNode) : List String :=
  (push_branch_list env dry n.pushable n.action n.branches).1

/-- The node-local effects of git_push_internal. -/
def own_effs (env : Env) (dry : Bool) (n : PushNode) : List Eff :=
  (push_branch_list env dry n.pushable n.action n.branches).2

theorem git_push_internal_eq (env : Env) (dry : Bool) (n : PushNode) :
    git_push_internal env dry n
      = if (own_failed env dry n).isEmpty
        then (own_failed env dry n ++ (push_stacks env dry n.«stacks»).1,
              own_effs env dry n ++ (push_stacks env dry n.«stacks»).2)
        else (own_failed env dry n, own_effs env dry n) := by
  cases n with
  | mk bs a p ss =>
    simp [git_push_internal, own_failed, own_effs, PushNode.pushable,
      PushNode.action, PushNode.branches, PushNode.«stacks»]

mutual

/-- All branch names carried anywhere in the push tree, node first then the
child stacks in order. -/
def pushAllNames (n : PushNode) : List String :=
  match n with
  | .mk bs _ _ ss => bs.map Branch.name ++ pushAllNamesStacks ss
termination_by sizeOf n

def pushAllNamesStacks : List (List PushNode) → List String
  | [] => []
  | g :: rest => pushAllNamesStack g ++ pushAllNamesStacks rest
termination_by ss => sizeOf ss

def pushAllNamesStack : List PushNode → List String
  | [] => []
  | n :: rest => pushAllNames n ++ pushAllNamesStack rest
termination_by ns => sizeOf ns

end

/-- Subtree containment in the push tree: m reaches k through zero or more
child-stack steps. -/
inductive Desc : PushNode → PushNode → Prop where
  | refl (n : PushNode) : Desc n n
  | child {n m k : PushNode} {g : List PushNode} (h1 : Desc n m)
      (hg : g ∈ m.«stacks») (hk : k ∈ g) : Desc n k

/-- k lies strictly below n: inside the subtree of some node of some child
stack of n. -/
def StrictDesc (n k : PushNode) : Prop :=
  ∃ g ∈ n.«stacks», ∃ c ∈ g, Desc c k

theorem desc_trans {a b c : PushNode} (h1 : Desc a b) (h2 : Desc b c) : Desc a c := by
  induction h2 with
  | refl => exact h1
  | child h2a hg hk ih => exact Desc.child ih hg hk

theorem desc_of_strict {m k : PushNode} (h : StrictDesc m k) : Desc m k := by
  obtain ⟨g, hg, c, hc, hdesc⟩ := h
  exact desc_trans (Desc.child (Desc.refl m) hg hc) hdesc

theorem desc_cases {n k : PushNode} (h : Desc n k) : k = n ∨ StrictDesc n k := by
  induction h with
  | refl => exact Or.inl rfl
  | child h1 hg hk ih =>
    rcases ih with he | hs
    · subst he
      exact Or.inr ⟨_, hg, _, hk, Desc.refl _⟩
    · obtain ⟨g2, hg2, c, hc, hdesc⟩ := hs
      exact Or.inr ⟨g2, hg2, c, hc, Desc.child hdesc hg hk⟩

theorem subset_stack_of_mem : ∀ (g : List PushNode) (k : PushNode), k ∈ g →
    ∀ x ∈ pushAllNames k, x ∈ pushAllNamesStack g := by
  intro g
  induction g with
  | nil => intro k hk; simp at hk
  | cons n rest ih =>
    intro k hk x hx
    simp only [pushAllNamesStack, List.mem_append]
    rcases List.mem_cons.mp hk with h | h
    · subst h
      exact Or.inl hx
    · exact Or.inr (ih k h x hx)

theorem subset_stacks_of_mem : ∀ (ss : List (List PushNode)) (g : List PushNode),
    g ∈ ss → ∀ x ∈ pushAllNamesStack g, x ∈ pushAllNamesStacks ss := by
  intro ss
  induction ss with
  | nil => intro g hg; simp at hg
  | cons g0 rest ih =>
    intro g hg x hx
    simp only [pushAllNamesStacks, List.mem_append]
    rcases List.mem_cons.mp hg with h | h
    · subst h
      exact Or.inl hx
    · exact Or.inr (ih g h x hx)

theorem mem_allNames_right {m : PushNode} {x : String}
    (h : x ∈ pushAllNamesStacks m.«stacks») : x ∈ pushAllNames m := by
  cases m with
  | mk bs a p ss =>
    simp only [pushAllNames, PushNode.«stacks»] at h ⊢
    exact List.mem_append.mpr (Or.inr h)

theorem name_in_allNames {k : PushNode} {b : Branch} (hb : b ∈ k.branches) :
    b.name ∈ pushAllNames k := by
  cases k with
  | mk bs a p ss =>
    simp only [pushAllNames, PushNode.branches] at hb ⊢
    exact List.mem_append.mpr (Or.inl (List.mem_map.mpr ⟨b, hb, rfl⟩))

theorem allNames_of_desc {n k : PushNode} (h : Desc n k) :
    ∀ x ∈ pushAllNames k, x ∈ pushAllNames n := by
  induction h with
  | refl => intro x hx; exact hx
  | child h1 hg hk ih =>
    intro x hx
    exact ih x (mem_allNames_right
      (subset_stacks_of_mem _ _ hg x (subset_stack_of_mem _ _ hk x hx)))

theorem name_in_stacks_of_strict {m k : PushNode} (h : StrictDesc m k)
    {b : Branch} (hb : b ∈ k.branches) :
    b.name ∈ pushAllNamesStacks m.«stacks» := by
  obtain ⟨g, hg, c, hc, hdesc⟩ := h
  exact subset_stacks_of_mem _ _ hg _
    (subset_stack_of_mem _ _ hc _ (allNames_of_desc hdesc _ (name_in_allNames hb)))

theorem push_branch_names (env : Env) (dry : Bool) (p : Bool) (a : Action)
    (b : Branch) (r name : String)
    (h : Eff.pushCmd r name ∈ (push_branch env dry p a b).2) : name = b.name := by
  cases p with
  | false =>
    by_cases ha : (a.is_protected || a.is_rebase) = true <;>
      simp [push_branch, ha] at h
  | true =>
    cases dry with
    | true => simp [push_branch] at h
    | false =>
      by_cases hok : env.push_ok b.name = true <;>
        simp [push_branch, hok] at h <;> exact h.2

theorem push_branch_list_names (env : Env) (dry : Bool) (p : Bool) (a : Action) :
    ∀ (l : List Branch) (r name : String),
      Eff.pushCmd r name ∈ (push_branch_list env dry p a l).2 →
      name ∈ l.map Branch.name := by
  intro l
  induction l with
  | nil => intro r name h; simp [push_branch_list] at h
  | cons b rest ih =>
    intro r name h
    simp only [push_branch_list, List.mem_append] at h
    rcases h with h | h
    · simp only [List.map_cons, List.mem_cons]
      exact Or.inl (push_branch_names env dry p a b r name h)
    · simp only [List.map_cons, List.mem_cons]
      exact Or.inr (ih r name h)

mutual

theorem pushCmd_names_node : (env : Env) → (dry : Bool) → (n : PushNode) →
    ∀ (r name : String), Eff.pushCmd r name ∈ (git_push_internal env dry n).2 →
      name ∈ pushAllNames n
  | env, dry, .mk bs a p ss, r, name, h => by
    simp only [git_push_internal] at h
    simp only [pushAllNames, List.mem_append]
    split at h
    · rcases List.mem_append.mp h with h2 | h2
      · exact Or.inl (push_branch_list_names env dry p a bs r name h2)
      · exact Or.inr (pushCmd_names_stacks env dry ss r name h2)
    · exact Or.inl (push_branch_list_names env dry p a bs r name h)
termination_by env dry n => sizeOf n

theorem pushCmd_names_stacks : (env : Env) → (dry : Bool) →
    (ss : List (List PushNode)) →
    ∀ (r name : String), Eff.pushCmd r name ∈ (push_stacks env dry ss).2 →
      name ∈ pushAllNamesStacks ss
  | env, dry, [], r, name, h => by simp [push_stacks] at h
  | env, dry, g :: rest, r, name, h => by
    simp only [push_stacks] at h
    simp only [pushAllNamesStacks, List.mem_append]
    rcases List.mem_append.mp h with h2 | h2
    · exact Or.inl (pushCmd_names_stack env dry g r name h2)
    · exact Or.inr (pushCmd_names_stacks env dry rest r name h2)
termination_by env dry ss => sizeOf ss

theorem pushCmd_names_stack : (env : Env) → (dry : Bool) → (ns : List PushNode) →
    ∀ (r name : String), Eff.pushCmd r name ∈ (push_stack env dry ns).2 →
      name ∈ pushAllNamesStack ns
  | env, dry, [], r, name, h => by simp [push_stack] at h
  | env, dry, n :: rest, r, name, h => by
    simp only [push_stack] at h
    simp only [pushAllNamesStack, List.mem_append]
    rcases List.mem_append.mp h with h2 | h2
    · exact Or.inl (pushCmd_names_node env dry n r name h2)
    · exact Or.inr (pushCmd_names_stack env dry rest r name h2)
termination_by env dry ns => sizeOf ns

end

mutual

theorem push_block_node : (env : Env) → (dry : Bool) → (n : PushNode) →
    (pushAllNames n).Nodup →
    ∀ m, Desc n m → own_failed env dry m ≠ [] →
    ∀ k, StrictDesc m k → ∀ b ∈ k.branches, ∀ r,
      Eff.pushCmd r b.name ∉ (git_push_internal env dry n).2
  | env, dry, .mk bs a p ss, hn, m, hdesc, hfail, k, hk, b, hb, r => by
    intro hmem
    have hunf : pushAllNames (PushNode.mk bs a p ss)
        = List.map Branch.name bs ++ pushAllNamesStacks ss := by
      simp [pushAllNames]
    have hsplit := List.nodup_append.mp (by rw [← hunf]; exact hn)
    rcases desc_cases hdesc with he | hs
    · subst he
      rw [git_push_internal_eq,
        if_neg (by simpa [List.isEmpty_iff] using hfail)] at hmem
      have hname : b.name ∈ List.map Branch.name bs :=
        push_branch_list_names env dry p a bs r b.name
          (by simpa [own_effs, PushNode.pushable, PushNode.action, PushNode.branches]
            using hmem)
      have hname2 : b.name ∈ pushAllNamesStacks ss := by
        have h2 := name_in_stacks_of_strict hk hb
        simpa [PushNode.«stacks»] using h2
      exact hsplit.2.2 hname hname2
    · obtain ⟨g, hg, c, hc, hcm⟩ := hs
      have hg2 : g ∈ ss := by simpa [PushNode.«stacks»] using hg
      have hnameS : b.name ∈ pushAllNamesStacks ss := by
        have h1 : Desc c k := desc_trans hcm (desc_of_strict hk)
        have h2 : b.name ∈ pushAllNames c := allNames_of_desc h1 _ (name_in_allNames hb)
        exact subset_stacks_of_mem _ _ hg2 _ (subset_stack_of_mem _ _ hc _ h2)
      rw [git_push_internal_eq] at hmem
      by_cases hof : (own_failed env dry (PushNode.mk bs a p ss)).isEmpty = true
      · rw [if_pos hof] at hmem
        rcases List.mem_append.mp hmem with h2 | h2
        · have hname : b.name ∈ List.map Branch.name bs :=
            push_branch_list_names env dry p a bs r b.name
              (by simpa [own_effs, PushNode.pushable, PushNode.action,
                PushNode.branches] using h2)
          exact hsplit.2.2 hname hnameS
        · exact push_block_stacks env dry ss hsplit.2.1 m ⟨g, hg2, c, hc, hcm⟩
            hfail k hk b hb r (by simpa [PushNode.«stacks»] using h2)
      · rw [if_neg hof] at hmem
        have hname : b.name ∈ List.map Branch.name bs :=
          push_branch_list_names env dry p a bs r b.name
            (by simpa [own_effs, PushNode.pushable, PushNode.action,
              PushNode.branches] using hmem)
        exact hsplit.2.2 hname hnameS
termination_by env dry n => sizeOf n

theorem push_block_stacks : (env : Env) → (dry : Bool) → (ss : List (List PushNode)) →
    (pushAllNamesStacks ss).Nodup →
    ∀ m, (∃ g ∈ ss, ∃ c ∈ g, Desc c m) → own_failed env dry m ≠ [] →
    ∀ k, StrictDesc m k → ∀ b ∈ k.branches, ∀ r,
      Eff.pushCmd r b.name ∉ (push_stacks env dry ss).2
  | env, dry, [], hn, m, hex, hfail, k, hk, b, hb, r => by
    intro hmem
    simp [push_stacks] at hmem
  | env, dry, g0 :: rest, hn, m, hex, hfail, k, hk, b, hb, r => by
    intro hmem
    have hsplit := List.nodup_append.mp (by simpa [pushAllNamesStacks] using hn)
    obtain ⟨g, hg, c, hc, hcm⟩ := hex
    have hbk : b.name ∈ pushAllNames c :=
      allNames_of_desc (desc_trans hcm (desc_of_strict hk)) _ (name_in_allNames hb)
    have hbg : b.name ∈ pushAllNamesStack g := subset_stack_of_mem _ _ hc _ hbk
    simp only [push_stacks] at hmem
    rcases List.mem_append.mp hmem with h2 | h2
    · rcases List.mem_cons.mp hg with he | he
      · exact push_block_stack env dry g0 hsplit.1 m ⟨c, he ▸ hc, hcm⟩ hfail k hk b hb r h2
      · have h3 : b.name ∈ pushAllNamesStacks rest := subset_stacks_of_mem _ _ he _ hbg
        have h4 := pushCmd_names_stack env dry g0 r b.name h2
        exact hsplit.2.2 h4 h3
    · rcases List.mem_cons.mp hg with he | he
      · subst he
        have h4 := pushCmd_names_stacks env dry rest r b.name h2
        exact hsplit.2.2 hbg h4
      · exact push_block_stacks env dry rest hsplit.2.1 m ⟨g, he, c, hc, hcm⟩
          hfail k hk b hb r h2
termination_by env dry ss => sizeOf ss

theorem push_block_stack : (env : Env) → (dry : Bool) → (ns : List PushNode) →
    (pushAllNamesStack ns).Nodup →
    ∀ m, (∃ c ∈ ns, Desc c m) → own_failed env dry m ≠ [] →
    ∀ k, StrictDesc m k → ∀ b ∈ k.branches, ∀ r,
      Eff.pushCmd r b.name ∉ (push_stack env dry ns).2
  | env, dry, [], hn, m, hex, hfail, k, hk, b, hb, r => by
    intro hmem
    simp [push_stack] at hmem
  | env, dry, n0 :: rest, hn, m, hex, hfail, k, hk, b, hb, r => by
    intro hmem
    have hsplit := List.nodup_append.mp (by simpa [pushAllNamesStack] using hn)
    obtain ⟨c, hc, hcm⟩ := hex
    have hbc : b.name ∈ pushAllNames c :=
      allNames_of_desc (desc_trans hcm (desc_of_strict hk)) _ (name_in_allNames hb)
    simp only [push_stack] at hmem
    rcases List.mem_append.mp hmem with h2 | h2
    · rcases List.mem_cons.mp hc with he | he
      · exact push_block_node env dry n0 hsplit.1 m (he ▸ hcm) hfail k hk b hb r h2
      · have h3 : b.name ∈ pushAllNamesStack rest := subset_stack_of_mem _ _ he _ hbc
        have h4 := pushCmd_names_node env dry n0 r b.name h2
        exact hsplit.2.2 h4 h3
    · rcases List.mem_cons.mp hc with he | he
      · subst he
        have h4 := pushCmd_names_stack env dry rest r b.name h2
        exact hsplit.2.2 hbc h4
      · exact push_block_stack env dry rest hsplit.2.1 m ⟨c, he, hcm⟩ hfail k hk b hb r h2
termination_by env dry ns => sizeOf ns

end

/-- C9: in the push phase (branch names unique across the tree, as in a real
repository), whenever a node has a failed branch push, no push subprocess is
ever spawned for any branch on a strict descendant of that node anywhere in
the run's trace; and when a node's own pushes all succeed, its trace is its
own effects followed by the effects of every child stack in order, so
unrelated sibling subtrees are still attempted regardless of failures inside
one of them. -/
theorem c9_push_blocks_descendants (env : Env) (dry : Bool) (root : PushNode)
    (hn : (pushAllNames root).Nodup) :
    (∀ n, Desc root n → own_failed env dry n ≠ [] →
      ∀ m, StrictDesc n m → ∀ b ∈ m.branches, ∀ r,
        Eff.pushCmd r b.name ∉ (git_push_internal env dry root).2)
    ∧ (own_failed env dry root = [] →
        (git_push_internal env dry root).2
          = own_effs env dry root ++ (push_stacks env dry root.«stacks»).2) := by
  constructor
  · intro n hdesc hfail m hm b hb r
    exact push_block_node env dry root hn n hdesc hfail m hm b hb r
  · intro h0
    rw [git_push_internal_eq, if_pos (by simp [h0])]

def envC9 : Env := { envBase with push_ok := fun n => n != "a" }

def pnB : PushNode := .mk [⟨"b", 2, none, none⟩] Action.Pick true []

def pnA : PushNode := .mk [⟨"a", 1, none, none⟩] Action.Pick true [[pnB]]

/-- C9 witness: the root's own branch a fails to push, and the branch b on the
child node is never pushed. -/
theorem c9_witness :
    ((pushAllNames pnA).Nodup ∧ own_failed envC9 false pnA ≠ []
      ∧ StrictDesc pnA pnB ∧ (⟨"b", 2, none, none⟩ : Branch) ∈ pnB.branches)
    ∧ ∀ r, Eff.pushCmd r "b" ∉ (git_push_internal envC9 false pnA).2 := by
  have hnames : pushAllNames pnA = ["a", "b"] := by
    simp [pushAllNames, pushAllNamesStacks, pushAllNamesStack, pnA, pnB]
  have hnodup : (pushAllNames pnA).Nodup := by
    rw [hnames]
    decide
  have hfail : own_failed envC9 false pnA ≠ [] := by decide
  have hsd : StrictDesc pnA pnB :=
    ⟨[pnB], by simp [pnA, PushNode.«stacks»], pnB, by simp, Desc.refl pnB⟩
  have hb : (⟨"b", 2, none, none⟩ : Branch) ∈ pnB.branches := by
    simp [pnB, PushNode.branches]
  refine ⟨⟨hnodup, hfail, hsd, hb⟩, ?_⟩
  intro r
  exact (c9_push_blocks_descendants envC9 false pnA hnodup).1 pnA (Desc.refl pnA)
    hfail pnB hsd ⟨"b", 2, none, none⟩ hb r

end GitStack
